import Mathlib

/-!
Verification of the content-decoding pipeline of the elastic-serverless-forwarder
core (line splitter, JSON collector, Elasticsearch shipper, trigger classifier,
s3-uri parsing), shallowly embedded from the Python sources.

Byte strings are modelled as `List Nat` (one entry per byte).  All inputs that
the claims exercise are ASCII, for which Python's `bytes.decode("utf-8")` /
`str.encode("utf-8")` round trip is the identity and `str.splitlines` can be
computed directly at byte level.
-/

namespace ESF

/-- A byte string: list of byte values. -/
abbrev Bytes := List Nat

/-- Python `str.splitlines` line-boundary characters in the ASCII range:
`\n`, `\v`, `\f`, `\r`, and the file/group/record separators 0x1c-0x1e. -/
def isLineBoundary (b : Nat) : Bool :=
  b == 0x0a || b == 0x0b || b == 0x0c || b == 0x0d || b == 0x1c || b == 0x1d || b == 0x1e

/-- Worker for `splitlinesB`: `acc` holds the bytes of the current line in
reverse.  `\r\n` counts as a single boundary; every other boundary byte ends a
line by itself; a trailing segment without terminator is a final line. -/
def splitAux (acc : Bytes) : Bytes → List Bytes
  | [] => if acc.isEmpty then [] else [acc.reverse]
  | 0x0d :: 0x0a :: rest => acc.reverse :: splitAux [] rest
  | b :: rest =>
    if isLineBoundary b then
      acc.reverse :: splitAux [] rest
    else
      splitAux (b :: acc) rest

/-- Byte-level model of Python `bytes.decode("utf-8").splitlines()` (each
resulting line re-encoded), valid for ASCII content. -/
def splitlinesB (s : Bytes) : List Bytes := splitAux [] s

/-- Does `needle` occur as a contiguous subsequence of the argument?
Models Python `bytes.find(needle) > -1`. -/
def containsSeq (needle : Bytes) : Bytes → Bool
  | [] => needle.isEmpty
  | x :: rest => needle.isPrefixOf (x :: rest) || containsSeq needle rest

/-- Python `bytes.endswith`. -/
def endsWithB (s suffix : Bytes) : Bool := suffix.isSuffixOf s

/-- Python `bytes.rstrip(set)`: drop trailing bytes that belong to `set`
(an empty `set` strips nothing, exactly like `b"".rstrip(b"")`). -/
def rstripSet (set : Bytes) (s : Bytes) : Bytes :=
  (s.reverse.dropWhile (fun b => set.contains b)).reverse

/-- Python `bytes.lstrip(set)`. -/
def lstripSet (set : Bytes) (s : Bytes) : Bytes :=
  s.dropWhile (fun b => set.contains b)

/-- Python `bytes.strip(set)`: both ends. -/
def stripSet (set : Bytes) (s : Bytes) : Bytes :=
  rstripSet set (lstripSet set s)

/-- Worker for `countSeq`: the fuel bounds the recursion by the input length,
keeping the definition structurally recursive (each step consumes at least
one byte, so the fuel never runs out before the list does). -/
def countSeqF (needle : Bytes) : Nat → Bytes → Nat
  | 0, _ => 0
  | _, [] => 0
  | fuel + 1, x :: rest =>
    if needle.isPrefixOf (x :: rest) && !needle.isEmpty then
      1 + countSeqF needle fuel (List.drop (needle.length - 1) rest)
    else
      countSeqF needle fuel rest

/-- Count non-overlapping occurrences of `needle`, Python `bytes.count`
(left-to-right scan, skipping past each match). -/
def countSeq (needle s : Bytes) : Nat := countSeqF needle s.length s

/-- One record yielded by a decoding stage: payload (newline excluded),
starting offset, ending offset (newline included), trailing newline. -/
structure BRecord where
  payload : Bytes
  starting_offset : Nat
  ending_offset : Nat
  newline : Bytes
  deriving Repr, DecidableEq

/-- Rolling state of `by_lines`: current ending offset and the bytes not yet
terminated by a newline. -/
structure ByLinesState where
  ending_offset : Nat
  unfinished_line : Bytes
  deriving Repr, DecidableEq

/-- The newline style `by_lines` adopts for a buffer window: `\r\n` when it
occurs anywhere in the window, else `\n` when it occurs, else empty. -/
def detectNewline (u : Bytes) : Bytes :=
  if containsSeq [0x0d, 0x0a] u then [0x0d, 0x0a]
  else if containsSeq [0x0a] u then [0x0a]
  else []

/-- Yield the complete lines of one window with running offsets
(the `for line in lines:` loop of `by_lines`). -/
def emitLines (off : Nat) (newline : Bytes) : List Bytes → List BRecord
  | [] => []
  | l :: rest =>
    ⟨l, off, off + l.length + newline.length, newline⟩ ::
      emitLines (off + l.length + newline.length) newline rest

/-- Body of the `for data, ... in iterator:` loop of `by_lines`
(src/storage/decorator.py): append the chunk, split, keep the last line
(with its newline when the window ended on one) as the new buffer, yield the
others. -/
def byLinesStep (st : ByLinesState) (data : Bytes) : ByLinesState × List BRecord :=
  let u := st.unfinished_line ++ data
  let lines := splitlinesB u
  if lines.isEmpty then
    ({ st with unfinished_line := u }, [])
  else
    let newline := detectNewline u
    let kept := (lines.getLastD []) ++ (if endsWithB u newline then newline else [])
    let toYield := lines.dropLast
    let recs := emitLines st.ending_offset newline toYield
    let ending := st.ending_offset + (toYield.map (fun l => l.length + newline.length)).sum
    (⟨ending, kept⟩, recs)

/-- Final flush of `by_lines`: emit the non-empty remainder, stripping its own
trailing newline. -/
def byLinesFlush (st : ByLinesState) : List BRecord :=
  if st.unfinished_line.isEmpty then []
  else
    let newline :=
      if endsWithB st.unfinished_line [0x0d, 0x0a] then [0x0d, 0x0a]
      else if endsWithB st.unfinished_line [0x0a] then [0x0a]
      else []
    let u := rstripSet newline st.unfinished_line
    [⟨u, st.ending_offset, st.ending_offset + u.length + newline.length, newline⟩]

/-- Worker running `byLinesStep` over all chunks then flushing. -/
def byLinesRun (st : ByLinesState) : List Bytes → List BRecord
  | [] => byLinesFlush st
  | c :: cs => (byLinesStep st c).2 ++ byLinesRun (byLinesStep st c).1 cs

/-- The `by_lines` decorator of src/storage/decorator.py applied to an
upstream iterator that yields the given chunks, starting at `range_start`. -/
def byLines (range_start : Nat) (chunks : List Bytes) : List BRecord :=
  byLinesRun ⟨range_start, []⟩ chunks

/-- ASCII bytes of a string (all claim inputs are ASCII). -/
def asciiB (s : String) : Bytes := s.data.map Char.toNat

/-! Auxiliary notions used to state and prove the offset-accounting claims. -/

/-- A byte string whose only line-boundary bytes are `\n`: the uniform-newline
inputs for which the stream-length accounting of `by_lines` is exact. -/
def onlyNL (c : Bytes) : Prop := ∀ b ∈ c, isLineBoundary b = true → b = 0x0a

instance (c : Bytes) : Decidable (onlyNL c) := by unfold onlyNL; infer_instance

/-- Splitter specialised to `\n`-only content; agrees with `splitAux` on
`onlyNL` inputs and has a plain two-case recursion convenient for proofs. -/
def splitAuxNl (acc : Bytes) : Bytes → List Bytes
  | [] => if acc.isEmpty then [] else [acc.reverse]
  | b :: rest =>
    if b == 0x0a then acc.reverse :: splitAuxNl [] rest
    else splitAuxNl (b :: acc) rest

/-- Does the byte string end in `\n`? -/
def lastIsNl (u : Bytes) : Bool := u.getLast? == some 0x0a

/-- Sum of `length + 1` over a list of lines (each line plus one `\n`). -/
def sumNl (ls : List Bytes) : Nat := (ls.map (fun l => l.length + 1)).sum

/-- Total bytes accounted for by a record list: payload plus newline. -/
def recSum (rs : List BRecord) : Nat :=
  (rs.map (fun r => r.payload.length + r.newline.length)).sum

/-- The records chain from `off`: first starting offset is `off`, each ending
offset is starting offset plus payload and newline length, and each next
record starts where the previous ended. -/
def chainedFrom (off : Nat) : List BRecord → Prop
  | [] => True
  | r :: rest =>
    r.starting_offset = off ∧
    r.ending_offset = off + r.payload.length + r.newline.length ∧
    chainedFrom r.ending_offset rest

/-- Invariant of the `by_lines` buffer on `onlyNL` input: only `\n` boundaries,
and any `\n` it holds is its final byte. -/
def BufInv (u : Bytes) : Prop := onlyNL u ∧ 0x0a ∉ u.dropLast


/-! ## Python values, dict/list access, and the aws handler utilities
(src/handlers/aws/utils.py) -/

/-- A Python/JSON value as manipulated by the handler utilities and the JSON
collector.  Numbers in the claims are integers. -/
inductive Json where
  | null
  | bool (b : Bool)
  | num (n : Int)
  | str (s : String)
  | arr (xs : List Json)
  | obj (fields : List (String × Json))

/-- Python runtime errors the embedded code can raise. -/
inductive PyErr where
  | keyError (k : String)
  | indexError
  | typeError
  | valueError (msg : String)
  | assertionError
  | exception (msg : String)
  deriving Repr, DecidableEq

/-- Python `k in x` for a dict (our handler inputs use `in` on dicts only;
a non-dict raises `TypeError` just as `in` on a non-container would). -/
def jHasKey (j : Json) (k : String) : Except PyErr Bool :=
  match j with
  | .obj fs => .ok (fs.any (fun p => p.1 == k))
  | _ => .error .typeError

/-- Python `x[k]` on a dict: `KeyError` when missing, `TypeError` on non-dict. -/
def jGet (j : Json) (k : String) : Except PyErr Json :=
  match j with
  | .obj fs =>
    match fs.find? (fun p => p.1 == k) with
    | some p => .ok p.2
    | none => .error (.keyError k)
  | _ => .error .typeError

/-- Python `x[i]` on a list: `IndexError` out of range, `TypeError` otherwise. -/
def jIndex (j : Json) (i : Nat) : Except PyErr Json :=
  match j with
  | .arr xs =>
    match xs.get? i with
    | some x => .ok x
    | none => .error .indexError
  | _ => .error .typeError

/-- Python `len(x)` for list/dict/str. -/
def jLen (j : Json) : Except PyErr Nat :=
  match j with
  | .arr xs => .ok xs.length
  | .obj fs => .ok fs.length
  | .str s => .ok s.length
  | _ => .error .typeError

/-- The `_available_triggers` dict of src/handlers/aws/utils.py. -/
def _available_triggers : List (String × String) := [("aws:sqs", "sqs")]

/-- `_get_trigger_type` of src/handlers/aws/utils.py, line by line.  The first
guard is `if "Records" not in event and len(event["Records"]) < 1:` — with
`and`, when `"Records"` is missing the right conjunct still evaluates
`event["Records"]` and raises `KeyError` before the guard can fire, and an
empty `Records` list passes the guard only to hit `event["Records"][0]`
(`IndexError`) below. -/
def getTriggerType (event : Json) : Except PyErr String := do
  let hasRecords ← jHasKey event "Records"
  let cond1 ←
    if !hasRecords then do
      let recs ← jGet event "Records"
      let n ← jLen recs
      pure (decide (n < 1))
    else
      pure false
  if cond1 then throw (.exception "Not supported trigger")
  let recs ← jGet event "Records"
  let r0 ← jIndex recs 0
  let hasES ← jHasKey r0 "eventSource"
  if !hasES then throw (.exception "Not supported trigger")
  let es ← jGet r0 "eventSource"
  -- `event_source not in _available_triggers`: only a string key can be
  -- present in the dict, so any non-string value falls to the raise.
  let esKey := match es with | .str s => some s | _ => none
  match esKey.bind (fun s => _available_triggers.lookup s) with
  | none => throw (.exception "Not supported trigger")
  | some trigger_type =>
    if trigger_type ≠ "sqs" then
      pure trigger_type
    else do
      let hasMA ← jHasKey r0 "messageAttributes"
      if !hasMA then
        pure trigger_type
      else do
        let ma ← jGet r0 "messageAttributes"
        let hasOrig ← jHasKey ma "originalEventSource"
        if !hasOrig then
          pure trigger_type
        else
          pure "self_sqs"

/-- Python `str.strip(chars)`: remove from BOTH ends every character that
belongs to `chars` (set semantics, not prefix removal). -/
def pyStripChars (chars : List Char) (s : List Char) : List Char :=
  ((s.dropWhile (fun c => chars.contains c)).reverse.dropWhile
    (fun c => chars.contains c)).reverse

/-- Python `s.split(sep, 1)`: split at the first occurrence of `sep` only. -/
def pySplitOnce (sep : Char) : List Char → List Char → List (List Char)
  | [], acc => [acc.reverse]
  | c :: rest, acc =>
    if c == sep then [acc.reverse, rest] else pySplitOnce sep rest (c :: acc)

/-- `_from_s3_uri_to_bucket_name_and_object_key` of src/handlers/aws/utils.py:
checks the `s3://` prefix, then `s3_uri.strip("s3://")` — which strips any
leading/trailing characters in the set `{s,3,:,/}` — then splits once on `/`. -/
def fromS3UriToBucketNameAndObjectKey (s3_uri : String) :
    Except PyErr (String × String) := do
  if !(("s3://".data).isPrefixOf s3_uri.data) then
    throw (.valueError ("Invalid s3 uri provided: " ++ s3_uri))
  let stripped := pyStripChars ['s', '3', ':', '/'] s3_uri.data
  let parts := pySplitOnce '/' stripped []
  match parts with
  | [bucket, key] => pure (⟨bucket⟩, ⟨key⟩)
  | _ => throw (.valueError ("Invalid s3 uri provided: " ++ String.mk stripped))


/-! ## SHA-256 (hashlib.sha256) over byte lists.  32-bit words are `Nat`s
below `2^32`; the bitwise primitives are written with `/`, `%`, `*` so that
concrete digests evaluate by plain arithmetic reduction. -/

/-- 2^32, the word modulus. -/
def m32 : Nat := 4294967296

/-- 2^n. -/
def pow2 (n : Nat) : Nat := 2 ^ n

/-- Combine `fuel` bits of `x` and `y` with the bit operation `f`. -/
def bitZip (f : Nat → Nat → Nat) : Nat → Nat → Nat → Nat
  | 0, _, _ => 0
  | fuel + 1, x, y => f (x % 2) (y % 2) + 2 * bitZip f fuel (x / 2) (y / 2)

/-- 32-bit xor. -/
def xor32 (x y : Nat) : Nat := bitZip (fun a b => (a + b) % 2) 32 x y

/-- 32-bit and. -/
def and32 (x y : Nat) : Nat := bitZip (fun a b => a * b) 32 x y

/-- 32-bit complement. -/
def not32 (x : Nat) : Nat := 4294967295 - x % m32

/-- Right-shift of a 32-bit word. -/
def shr32 (n x : Nat) : Nat := x / pow2 n

/-- Right-rotation of a 32-bit word. -/
def rotr (n x : Nat) : Nat := x / pow2 n + (x % pow2 n) * pow2 (32 - n)

/-- SHA-256 Ch(x,y,z). -/
def chF (x y z : Nat) : Nat := xor32 (and32 x y) (and32 (not32 x) z)

/-- SHA-256 Maj(x,y,z). -/
def majF (x y z : Nat) : Nat := xor32 (xor32 (and32 x y) (and32 x z)) (and32 y z)

/-- SHA-256 Σ0. -/
def bigSigma0 (x : Nat) : Nat := xor32 (xor32 (rotr 2 x) (rotr 13 x)) (rotr 22 x)

/-- SHA-256 Σ1. -/
def bigSigma1 (x : Nat) : Nat := xor32 (xor32 (rotr 6 x) (rotr 11 x)) (rotr 25 x)

/-- SHA-256 σ0. -/
def smallSigma0 (x : Nat) : Nat := xor32 (xor32 (rotr 7 x) (rotr 18 x)) (shr32 3 x)

/-- SHA-256 σ1. -/
def smallSigma1 (x : Nat) : Nat := xor32 (xor32 (rotr 17 x) (rotr 19 x)) (shr32 10 x)

/-- SHA-256 round constants. -/
def sha256K : List Nat :=
  [1116352408, 1899447441, 3049323471, 3921009573, 961987163,
   1508970993, 2453635748, 2870763221, 3624381080, 310598401,
   607225278, 1426881987, 1925078388, 2162078206, 2614888103,
   3248222580, 3835390401, 4022224774, 264347078, 604807628,
   770255983, 1249150122, 1555081692, 1996064986, 2554220882,
   2821834349, 2952996808, 3210313671, 3336571891, 3584528711,
   113926993, 338241895, 666307205, 773529912, 1294757372,
   1396182291, 1695183700, 1986661051, 2177026350, 2456956037,
   2730485921, 2820302411, 3259730800, 3345764771, 3516065817,
   3600352804, 4094571909, 275423344, 430227734, 506948616,
   659060556, 883997877, 958139571, 1322822218, 1537002063,
   1747873779, 1955562222, 2024104815, 2227730452, 2361852424,
   2428436474, 2756734187, 3204031479, 3329325298]

/-- SHA-256 initial hash value. -/
def sha256H0 : List Nat :=
  [1779033703, 3144134277, 1013904242, 2773480762,
   1359893119, 2600822924, 528734635, 1541459225]

/-- `n` bytes of `x`, big-endian. -/
def toBytesBE (n x : Nat) : List Nat :=
  (List.range n).map (fun i => x / pow2 (8 * (n - 1 - i)) % 256)

/-- Merkle-Damgard padding: `0x80`, zeros to 56 mod 64, 8-byte big-endian
bit length. -/
def padMsg (msg : List Nat) : List Nat :=
  let padZeros := (119 - msg.length % 64) % 64
  msg ++ [0x80] ++ List.replicate padZeros 0 ++ toBytesBE 8 (msg.length * 8)

/-- Worker for `chunk64`: `acc` holds the current block in reverse. -/
def chunk64Aux : List Nat → List Nat → List (List Nat)
  | [], acc => if acc.isEmpty then [] else [acc.reverse]
  | b :: rest, acc =>
    if acc.length = 63 then (acc.reverse ++ [b]) :: chunk64Aux rest []
    else chunk64Aux rest (b :: acc)

/-- Split into 64-byte blocks. -/
def chunk64 (l : List Nat) : List (List Nat) := chunk64Aux l []

/-- The 16 big-endian 32-bit words of a 64-byte block. -/
def wordsOf (block : List Nat) : List Nat :=
  (List.range 16).map (fun i =>
    block.getD (4 * i) 0 * 16777216 + block.getD (4 * i + 1) 0 * 65536 +
    block.getD (4 * i + 2) 0 * 256 + block.getD (4 * i + 3) 0)

/-- Extend the 16 message-schedule words to 64. -/
def extendW (w16 : List Nat) : List Nat :=
  (List.range 48).foldl
    (fun w _ =>
      let i := w.length
      w ++ [(smallSigma1 (w.getD (i - 2) 0) + w.getD (i - 7) 0 +
             smallSigma0 (w.getD (i - 15) 0) + w.getD (i - 16) 0) % m32])
    w16

/-- One compression round on the state `[a,b,c,d,e,f,g,h]`. -/
def sha256Round (s : List Nat) (k w : Nat) : List Nat :=
  match s with
  | [a, b, c, d, e, f, g, h] =>
    let t1 := (h + bigSigma1 e + chF e f g + k + w) % m32
    let t2 := (bigSigma0 a + majF a b c) % m32
    [(t1 + t2) % m32, a, b, c, (d + t1) % m32, e, f, g]
  | other => other

/-- Compress one 64-byte block into the running hash. -/
def compressBlock (h : List Nat) (block : List Nat) : List Nat :=
  let w := extendW (wordsOf block)
  let s := (sha256K.zip w).foldl (fun s kw => sha256Round s kw.1 kw.2) h
  List.zipWith (fun x y => (x + y) % m32) h s

/-- SHA-256 of a byte list, as eight 32-bit words. -/
def sha256Words (msg : List Nat) : List Nat :=
  (chunk64 (padMsg msg)).foldl compressBlock sha256H0

/-- Lower-case hex digit. -/
def hexDigit (n : Nat) : Char :=
  if n < 10 then Char.ofNat (48 + n) else Char.ofNat (87 + n)

/-- Eight hex digits of a 32-bit word. -/
def toHex8 (x : Nat) : List Char :=
  (List.range 8).map (fun i => hexDigit (x / pow2 (4 * (7 - i)) % 16))

/-- `hashlib.sha256(...).hexdigest()`. -/
def sha256Hex (msg : List Nat) : String :=
  String.mk ((sha256Words msg).flatMap toHex8)

/-- UTF-8 encoding of one character (bit packing written arithmetically). -/
def utf8EncodeChar (c : Char) : List Nat :=
  let n := c.toNat
  if n < 0x80 then [n]
  else if n < 0x800 then [0xC0 + n / 64, 0x80 + n % 64]
  else if n < 0x10000 then [0xE0 + n / 4096, 0x80 + n / 64 % 64, 0x80 + n % 64]
  else [0xF0 + n / 262144, 0x80 + n / 4096 % 64, 0x80 + n / 64 % 64, 0x80 + n % 64]

/-- Python `str.encode("UTF-8")`. -/
def utf8Encode (s : String) : List Nat := s.data.flatMap utf8EncodeChar

/-- Python `f"{n:012d}"` for a non-negative offset. -/
def zeroPad12 (n : Nat) : String :=
  let s := toString n
  String.mk (List.replicate (12 - s.length) '0') ++ s

/-! ## Elasticsearch shipper (src/shippers/es.py) -/

/-- An Event Document: the required nested fields of §3 of the data model
(`fields.message`, `fields.log.offset`, `fields.aws.s3.bucket.arn`,
`fields.aws.s3.object.key`) plus the attributes `send` adds in place. -/
structure EventDoc where
  fields_message : String
  fields_log_offset : Nat
  fields_aws_s3_bucket_arn : String
  fields_aws_s3_object_key : String
  data_stream : Option (String × String × String)
  event_field : Option (String × String)
  tags : Option (List String)
  op_type : Option String
  index : Option String
  id : Option String
  deriving Repr, DecidableEq

/-- The mutable attributes of an `ElasticsearchShipper`.  `_es_index` is
`none` while the Python attribute is unset (before `discover_dataset`).
`max_chunk_bytes` records the `batch_max_bytes` argument, which the source
stores in `_bulk_kwargs["max_chunk_bytes"]` and never consults in `send`. -/
structure ESState where
  dataset : String
  namespaceStr : String
  tags : List String
  bulk_batch_size : Int
  max_chunk_bytes : Int
  es_index : Option String
  bulk_actions : List EventDoc
  replay_args_dataset : Option String
  deriving Repr, DecidableEq

/-- `ElasticsearchShipper._s3_object_id`: first 10 hex chars of SHA-256 of
`f"{bucket_arn}{object_key}"`, a hyphen, `f"{offset:012d}"`. -/
def s3ObjectId (event_payload : EventDoc) : String :=
  let src := event_payload.fields_aws_s3_bucket_arn ++ event_payload.fields_aws_s3_object_key
  let hex_prefix := String.mk (((sha256Words (utf8Encode src)).flatMap toHex8).take 10)
  hex_prefix ++ "-" ++ zeroPad12 event_payload.fields_log_offset

/-- The document-id formula exactly as §3 of the spec words it, kept separate
from `s3ObjectId` (which is read off the source) so the two can be compared:
first 10 hex chars of SHA-256 of `bucket_arn || object_key`, then a hyphen,
then the offset zero-padded to 12 decimal digits. -/
def specDocumentId (bucket_arn object_key : String) (offset : Nat) : String :=
  String.mk (((sha256Words (utf8Encode (bucket_arn ++ object_key))).flatMap toHex8).take 10)
    ++ "-" ++ zeroPad12 offset

/-- Python `dataset.replace(".", "-")` (single-character pattern). -/
def replaceDotDash (s : String) : String :=
  String.mk (s.data.map (fun c => if c = '.' then '-' else c))

/-- `ElasticsearchShipper._enrich_event`: mutates the payload in place. -/
def enrichEvent (st : ESState) (event_payload : EventDoc) : EventDoc :=
  { event_payload with
    data_stream := some ("logs", st.dataset, st.namespaceStr),
    event_field := some (st.dataset, event_payload.fields_message),
    tags := some (["preserve_original_event", "forwarded", replaceDotDash st.dataset]
      ++ st.tags) }

/-- The attribute assignments `send` performs on the event after the index
check: `_op_type`, `_index` when absent, derived `_id` when absent. -/
def processedEvent (st : ESState) (event0 : EventDoc) : EventDoc :=
  let event := enrichEvent st event0
  let event := { event with op_type := some "create" }
  let event := if event.index = none then { event with index := st.es_index } else event
  if event.id = none then { event with id := some (s3ObjectId event) } else event

/-- `ElasticsearchShipper.send`: returns the shipper state and the (in-place
mutated) event as they stand when `send` returns or raises, plus whether a
bulk request was issued (`es_bulk` itself is the external HTTP call; its
outcome handling is modelled by `handleOutcome`).  `enrichEvent` reads only
`dataset`/`namespaceStr`/`tags`, so applying `processedEvent` to `st0` equals
applying it after the `replay_args` assignment. -/
def sendES (st0 : ESState) (event0 : EventDoc) : ESState × EventDoc × Except PyErr Bool :=
  let st := { st0 with replay_args_dataset := some st0.dataset }
  let event := enrichEvent st event0
  if st.es_index.getD "" = "" then
    (st, event, .error (.valueError "Elasticsearch index cannot be empty"))
  else
    let event := processedEvent st event0
    let st := { st with bulk_actions := st.bulk_actions ++ [event] }
    if (st.bulk_actions.length : Int) < st.bulk_batch_size then
      (st, event, .ok false)
    else
      ({ st with bulk_actions := [] }, event, .ok true)

/-- `ElasticsearchShipper.flush`: bulk-send whatever is buffered (true when a
request was issued), then clear the batch. -/
def flushES (st : ESState) : ESState × Bool :=
  if st.bulk_actions.length > 0 then ({ st with bulk_actions := [] }, true)
  else ({ st with bulk_actions := [] }, false)

/-- One per-action bulk error as `_handle_outcome` reads it:
`error["create"]["_id"]`. -/
structure BulkError where
  create_id : String
  deriving Repr, DecidableEq

/-- `ElasticsearchShipper._handle_outcome` on the per-action error list:
for each error, filter the batch for actions with the matching `_id`, assert
exactly one matches, and invoke the replay handler with
`("elasticsearch", replay_args, action)`.  Returns the replay invocations. -/
def handleOutcome (replay_args_dataset : Option String) (bulk_actions : List EventDoc) :
    List BulkError → Except PyErr (List (String × Option String × EventDoc))
  | [] => .ok []
  | err :: rest =>
    let action_failed := bulk_actions.filter (fun a => a.id == some err.create_id)
    match action_failed with
    | [a] =>
      (handleOutcome replay_args_dataset bulk_actions rest).map
        (fun rs => ("elasticsearch", replay_args_dataset, a) :: rs)
    | _ => .error .assertionError


/-! Concrete fixtures for the shipper claims. -/

/-- A minimal event document as the decoding pipeline hands it to `send`
(routing attributes not yet assigned). -/
def sampleEvent : EventDoc :=
  { fields_message := "hello", fields_log_offset := 0,
    fields_aws_s3_bucket_arn := "arn:aws:s3:::b",
    fields_aws_s3_object_key := "k",
    data_stream := none, event_field := none, tags := none,
    op_type := none, index := none, id := none }

/-- A shipper with the default `batch_max_actions = 500` but
`batch_max_bytes = 1`, dataset discovered and index set. -/
def byteBoundShipper : ESState :=
  { dataset := "generic", namespaceStr := "default", tags := [],
    bulk_batch_size := 500, max_chunk_bytes := 1,
    es_index := some "logs-generic-default", bulk_actions := [],
    replay_args_dataset := none }

/-- A shipper whose `_es_index` attribute was never assigned
(`discover_dataset` not invoked). -/
def noIndexShipper : ESState :=
  { dataset := "", namespaceStr := "default", tags := [],
    bulk_batch_size := 500, max_chunk_bytes := 10485760,
    es_index := none, bulk_actions := [], replay_args_dataset := none }

/-- The event of boundary scenario 6: bucket arn `arn:aws:s3:::b`, key `k`,
offset 42. -/
def sampleC3Event : EventDoc :=
  { fields_message := "msg", fields_log_offset := 42,
    fields_aws_s3_bucket_arn := "arn:aws:s3:::b",
    fields_aws_s3_object_key := "k",
    data_stream := none, event_field := none, tags := none,
    op_type := none, index := none, id := none }


/-! ## JSON parsing (`share.json_parser`) and the JSON collector decorator -/

/-- JSON whitespace. -/
def isJsonWs (b : Nat) : Bool := b == 0x20 || b == 0x09 || b == 0x0a || b == 0x0d

/-- Skip JSON whitespace. -/
def skipWs : Bytes → Bytes
  | b :: rest => if isJsonWs b then skipWs rest else b :: rest
  | [] => []

/-- A JSON string-escape character. -/
def escChar (b : Nat) : Except Unit Char :=
  if b == 0x22 then .ok '"'
  else if b == 0x5c then .ok '\\'
  else if b == 0x2f then .ok '/'
  else if b == 0x62 then .ok (Char.ofNat 8)
  else if b == 0x66 then .ok (Char.ofNat 12)
  else if b == 0x6e then .ok (Char.ofNat 10)
  else if b == 0x72 then .ok (Char.ofNat 13)
  else if b == 0x74 then .ok (Char.ofNat 9)
  else .error ()

/-- Parse a JSON string body after the opening quote (ASCII content;
`\uXXXX` escapes are outside the modelled subset). -/
def parseStringBody : Bytes → Except Unit (List Char × Bytes)
  | [] => .error ()
  | 0x22 :: rest => .ok ([], rest)
  | 0x5c :: c :: rest => do
    let e ← escChar c
    let (cs, r) ← parseStringBody rest
    .ok (e :: cs, r)
  | b :: rest => do
    let (cs, r) ← parseStringBody rest
    .ok (Char.ofNat b :: cs, r)

/-- Greedily read decimal digits. -/
def parseDigitsAux : Bytes → Nat → Nat × Bytes
  | b :: rest, acc =>
    if 0x30 ≤ b ∧ b ≤ 0x39 then parseDigitsAux rest (acc * 10 + (b - 0x30))
    else (acc, b :: rest)
  | [], acc => (acc, [])

/-- A parsing task: a value, the members of an object after `{`, or the
elements of an array after `[`. -/
inductive JPTask where
  | val (s : Bytes)
  | objRest (s : Bytes) (acc : List (String × Json)) (first : Bool)
  | arrRest (s : Bytes) (acc : List Json) (first : Bool)

/-- Recursive-descent JSON parser, fuel-indexed so that the recursion is
structural (the fuel is spent strictly faster than the input). -/
def jp : Nat → JPTask → Except Unit (Json × Bytes)
  | 0, _ => .error ()
  | fuel + 1, .val s =>
    match skipWs s with
    | [] => .error ()
    | b :: rest =>
      if b == 0x7b then jp fuel (.objRest rest [] true)
      else if b == 0x5b then jp fuel (.arrRest rest [] true)
      else if b == 0x22 then do
        let (cs, r) ← parseStringBody rest
        .ok (.str (String.mk cs), r)
      else if b == 0x74 then
        match rest with
        | 0x72 :: 0x75 :: 0x65 :: r => .ok (.bool true, r)
        | _ => .error ()
      else if b == 0x66 then
        match rest with
        | 0x61 :: 0x6c :: 0x73 :: 0x65 :: r => .ok (.bool false, r)
        | _ => .error ()
      else if b == 0x6e then
        match rest with
        | 0x75 :: 0x6c :: 0x6c :: r => .ok (.null, r)
        | _ => .error ()
      else if b == 0x2d then
        match rest with
        | d :: r2 =>
          if 0x30 ≤ d ∧ d ≤ 0x39 then
            let (n, r) := parseDigitsAux r2 (d - 0x30)
            .ok (.num (-(n : Int)), r)
          else .error ()
        | [] => .error ()
      else if 0x30 ≤ b ∧ b ≤ 0x39 then
        let (n, r) := parseDigitsAux rest (b - 0x30)
        .ok (.num (n : Int), r)
      else .error ()
  | fuel + 1, .objRest s acc first =>
    match skipWs s with
    | [] => .error ()
    | b :: rest =>
      if b == 0x7d then .ok (.obj acc.reverse, rest)
      else
        let afterComma : Except Unit Bytes :=
          if first then .ok (b :: rest)
          else if b == 0x2c then .ok (skipWs rest) else .error ()
        match afterComma with
        | .error _ => .error ()
        | .ok s2 =>
          match s2 with
          | 0x22 :: rest2 => do
            let (cs, r) ← parseStringBody rest2
            match skipWs r with
            | 0x3a :: r2 => do
              let (v, r3) ← jp fuel (.val r2)
              jp fuel (.objRest r3 ((String.mk cs, v) :: acc) false)
            | _ => .error ()
          | _ => .error ()
  | fuel + 1, .arrRest s acc first =>
    match skipWs s with
    | [] => .error ()
    | b :: rest =>
      if b == 0x5d then .ok (.arr acc.reverse, rest)
      else
        let afterComma : Except Unit Bytes :=
          if first then .ok (b :: rest)
          else if b == 0x2c then .ok (skipWs rest) else .error ()
        match afterComma with
        | .error _ => .error ()
        | .ok s2 => do
          let (v, r) ← jp fuel (.val s2)
          jp fuel (.arrRest r (v :: acc) false)

/-- Modelled from the spec: `json_parser` from the `share` module (not under
src/), the injected JSON-decoding capability of §9 ("treat JSON parsing as an
injected capability; do not hard-code a parser").  Decodes the buffer as
exactly one JSON value — ASCII content, integer numbers, no `\uXXXX`
escapes, which covers every input the claims exercise — and fails (Python
`ValueError`) when the buffer is empty, malformed, or has trailing content,
as `json.loads`/`orjson.loads` would. -/
def jsonParser (s : Bytes) : Except Unit Json :=
  match jp (2 * s.length + 4) (.val s) with
  | .ok (v, rest) => if (skipWs rest).isEmpty then .ok v else .error ()
  | .error _ => .error ()

/-- `JsonCollectorState` of src/storage/decorator.py (the storage handle is
implicit; the breaker is an `int`). -/
structure JCState where
  starting_offset : Nat
  ending_offset : Nat
  unfinished_line : Bytes
  has_an_object_start : Bool
  is_a_json_object : Bool
  is_a_json_object_circuit_broken : Bool
  is_a_json_object_circuit_breaker : Int
  deriving Repr, DecidableEq

/-- `_handle_offset`. -/
def jcHandleOffset (offset_skew : Nat) (st : JCState) : JCState :=
  { st with starting_offset := st.ending_offset,
            ending_offset := st.ending_offset + offset_skew }

/-- Python `data.strip(b"\r\n").strip(b"\n")`. -/
def stripNewlines (s : Bytes) : Bytes := stripSet [0x0a] (stripSet [0x0d, 0x0a] s)

/-- `json_collector._collector`: buffer `data + newline`, try to decode; on
success reset the buffer, advance offsets by the buffered length, adjust the
circuit breaker, strip surrounding newlines and yield the object; on failure
yield a blank record for empty lines inside an object stream, else bump the
circuit breaker (tripping it past 1000). -/
def jcCollector (data newline : Bytes) (st0 : JCState) :
    JCState × List (Bytes × Option Json) :=
  let st := { st0 with unfinished_line := st0.unfinished_line ++ data ++ newline }
  match jsonParser st.unfinished_line with
  | .ok json_object =>
    let data_to_yield := st.unfinished_line
    let st := { st with unfinished_line := [] }
    let st := jcHandleOffset data_to_yield.length st
    let st := { st with is_a_json_object_circuit_breaker :=
      if newline ≠ [] then
        st.is_a_json_object_circuit_breaker - ((countSeq newline data_to_yield : Int) - 1)
      else
        st.is_a_json_object_circuit_breaker - 1 }
    let data_to_yield := stripNewlines data_to_yield
    let st := { st with is_a_json_object := true }
    (st, [(data_to_yield, some json_object)])
  | .error _ =>
    if st.is_a_json_object && ((stripNewlines st.unfinished_line).length == 0) then
      let st := { st with unfinished_line := [] }
      let st := jcHandleOffset newline.length st
      (st, [([], none)])
    else
      let st := { st with is_a_json_object_circuit_breaker :=
        st.is_a_json_object_circuit_breaker + 1 }
      if st.is_a_json_object_circuit_breaker > 1000 then
        ({ st with is_a_json_object_circuit_broken := true }, [])
      else
        (st, [])

/-- `json_collector._by_lines_fallback`: treat the whole buffer as a raw
body, run it through `by_lines`, emit each line advancing the collector's
offsets, clear the buffer and the object-start flag. -/
def jcFallback (st0 : JCState) : JCState × List BRecord :=
  (byLines st0.ending_offset [st0.unfinished_line]).foldl
    (fun (acc : JCState × List BRecord) r =>
      let st := jcHandleOffset (r.payload.length + r.newline.length) acc.1
      let st := { st with unfinished_line := [], has_an_object_start := false }
      (st, acc.2 ++ [⟨r.payload, st.starting_offset, st.ending_offset, r.newline⟩]))
    (st0, [])

/-- Python `str.lstrip()` whitespace set, ASCII range. -/
def isPySpace (b : Nat) : Bool :=
  b == 0x20 || b == 0x09 || b == 0x0a || b == 0x0b || b == 0x0c || b == 0x0d

/-- Body of the `for data, ... in iterator:` loop of the `ndjson` branch of
`json_collector.wrapper` (no field expander): pass lines through until a
payload starts (after left trim) with `{`, then feed `_collector`, and after
each feed drain through the fallback when the breaker has tripped. -/
def jcStep (st0 : JCState) (r : BRecord) : JCState × List BRecord :=
  let data := r.payload
  let newline := r.newline
  let step1 :=
    if !st0.has_an_object_start then
      let stripped_data := data.dropWhile isPySpace
      let st :=
        if stripped_data.length > 0 && (stripped_data.headD 0 == 0x7b) then
          { st0 with has_an_object_start := true }
        else st0
      if !st.has_an_object_start then
        let st := jcHandleOffset (data.length + newline.length) st
        (st, [(⟨data, st.starting_offset, st.ending_offset, newline⟩ : BRecord)])
      else
        (st, [])
    else
      (st0, [])
  let st := step1.1
  if st.has_an_object_start then
    let coll := jcCollector data newline st
    let st := coll.1
    let out := step1.2 ++ coll.2.map
      (fun dy => (⟨dy.1, st.starting_offset, st.ending_offset, newline⟩ : BRecord))
    if st.is_a_json_object_circuit_broken then
      let fb := jcFallback st
      (fb.1, out ++ fb.2)
    else
      (st, out)
  else
    (st, step1.2)

/-- The `json_collector` decorator in `ndjson` mode with no field expander,
over an upstream `by_lines` stage fed with the given chunks: the loop over
upstream records, then the final by-lines fallback when no JSON object was
ever collected.  Returns the final collector state and the yielded records. -/
def jsonCollectorNdjson (range_start : Nat) (chunks : List Bytes) :
    JCState × List BRecord :=
  let st0 : JCState :=
    { starting_offset := 0, ending_offset := range_start, unfinished_line := [],
      has_an_object_start := false, is_a_json_object := false,
      is_a_json_object_circuit_broken := false, is_a_json_object_circuit_breaker := 0 }
  let run := (byLines range_start chunks).foldl
    (fun (acc : JCState × List BRecord) r =>
      let s := jcStep acc.1 r
      (s.1, acc.2 ++ s.2))
    (st0, [])
  if !run.1.is_a_json_object then
    let fb := jcFallback run.1
    (fb.1, run.2 ++ fb.2)
  else
    run


/-- The upstream line record of boundary scenario 4: `b"{not json at all\n"`. -/
def lineC5 : Bytes := asciiB "\x7bnot json at all\n"

/-- `lineC5` without its newline. -/
def bodyC5 : Bytes := asciiB "\x7bnot json at all"

/-- The input of boundary scenario 4 with `n` repetitions. -/
def chunkC5 (n : Nat) : Bytes := (List.replicate n lineC5).flatten

/-- Collector state after `k` repetitions of `lineC5` have been buffered
without a successful parse: offsets still at 0, the whole chunk pending,
object-start seen, breaker at `k`. -/
def jcStateC5 (k : Nat) : JCState :=
  { starting_offset := 0, ending_offset := 0, unfinished_line := chunkC5 k,
    has_an_object_start := true, is_a_json_object := false,
    is_a_json_object_circuit_broken := false, is_a_json_object_circuit_breaker := (k : Int) }

end ESF

namespace ESF

theorem splitAux_eq_nl (acc u : Bytes) : onlyNL u → splitAux acc u = splitAuxNl acc u := by
  induction acc, u using splitAux.induct with
  | case1 acc ha => intro _; simp [splitAux, splitAuxNl]
  | case2 acc ha => intro _; simp [splitAux, splitAuxNl]
  | case3 acc rest ih =>
    intro h
    exact absurd (h 0x0d (by simp) (by decide)) (by decide)
  | case4 acc b rest hne hb ih =>
    intro h
    have hb10 : b = 0x0a := h b (by simp) hb
    subst hb10
    have h' : onlyNL rest := fun x hx hbx => h x (List.mem_cons_of_mem _ hx) hbx
    simp [splitAux, splitAuxNl, isLineBoundary, ih h']
  | case5 acc b rest hne hb ih =>
    intro h
    have h' : onlyNL rest := fun x hx hbx => h x (List.mem_cons_of_mem _ hx) hbx
    have hb10 : b ≠ 0x0a := fun hc => hb (by subst hc; decide)
    rw [splitAux.eq_def]
    split
    · rename_i x heq; exact absurd heq (by simp)
    · rename_i x r2 heq
      injection heq with h1 h2
      exact (hne r2 h1 h2).elim
    · rename_i x b2 r2 hside heq
      injection heq with h1 h2
      subst h1; subst h2
      rw [if_neg hb]
      simp [splitAuxNl, hb10, ih h']

end ESF

namespace ESF

theorem splitAuxNl_ne_nil (u : Bytes) (acc : Bytes) (h : acc ≠ [] ∨ u ≠ []) :
    splitAuxNl acc u ≠ [] := by
  induction u generalizing acc with
  | nil =>
    rcases h with h | h
    · simp [splitAuxNl, h]
    · exact absurd rfl h
  | cons b rest ih =>
    by_cases hb : b = 0x0a
    · subst hb; simp [splitAuxNl]
    · have := ih (b :: acc) (Or.inl (List.cons_ne_nil b acc))
      simpa [splitAuxNl, hb] using this

theorem lastIsNl_cons (b : Nat) (rest : Bytes) (h : rest ≠ []) :
    lastIsNl (b :: rest) = lastIsNl rest := by
  rcases List.exists_cons_of_ne_nil h with ⟨c, t, rfl⟩
  simp [lastIsNl, List.getLast?_cons_cons]

theorem splitAuxNl_no_nl (u : Bytes) : ∀ acc : Bytes, 0x0a ∉ u → (acc ≠ [] ∨ u ≠ []) →
    splitAuxNl acc u = [acc.reverse ++ u] := by
  induction u with
  | nil =>
    intro acc _ h
    rcases h with h | h
    · simp [splitAuxNl, h]
    · exact absurd rfl h
  | cons b rest ih =>
    intro acc hu _
    have hb : b ≠ 0x0a := fun hc => hu (by subst hc; exact List.mem_cons_self _ _)
    have hr : 0x0a ∉ rest := fun hc => hu (List.mem_cons_of_mem _ hc)
    have := ih (b :: acc) hr (Or.inl (List.cons_ne_nil b acc))
    simpa [splitAuxNl, hb, List.append_assoc] using this

theorem splitAuxNl_measure (u : Bytes) : ∀ acc : Bytes, (acc ≠ [] ∨ u ≠ []) →
    sumNl ((splitAuxNl acc u).dropLast)
      + ((splitAuxNl acc u).getLastD []).length
      + (if lastIsNl u then 1 else 0)
    = acc.length + u.length := by
  induction u with
  | nil =>
    intro acc h
    rcases h with h | h
    · simp [splitAuxNl, h, lastIsNl, sumNl]
    · exact absurd rfl h
  | cons b rest ih =>
    intro acc _
    by_cases hb : b = 0x0a
    · subst hb
      by_cases hr : rest = []
      · subst hr
        simp [splitAuxNl, sumNl, lastIsNl]
      · have hT := splitAuxNl_ne_nil rest [] (Or.inr hr)
        rcases List.exists_cons_of_ne_nil hT with ⟨t0, ts, hTe⟩
        have hIH := ih [] (Or.inr hr)
        rw [hTe] at hIH
        have hrw : splitAuxNl acc (0x0a :: rest) = acc.reverse :: splitAuxNl [] rest := by
          simp [splitAuxNl]
        rw [hrw, hTe, lastIsNl_cons _ _ hr, List.dropLast_cons₂]
        simp only [sumNl, List.map_cons, List.sum_cons, List.getLastD_cons,
          List.length_nil, List.length_reverse, List.length_cons] at hIH ⊢
        omega
    · by_cases hr : rest = []
      · subst hr
        simp [splitAuxNl, hb, sumNl, lastIsNl]
      · have h2 := ih (b :: acc) (Or.inl (List.cons_ne_nil _ _))
        have hrw : splitAuxNl acc (b :: rest) = splitAuxNl (b :: acc) rest := by
          simp [splitAuxNl, hb]
        rw [hrw, lastIsNl_cons _ _ hr, h2]
        simp only [List.length_cons]
        omega

theorem splitAuxNl_lines_mem (u : Bytes) : ∀ acc l x, l ∈ splitAuxNl acc u → x ∈ l →
    x ∈ acc ∨ x ∈ u := by
  induction u with
  | nil =>
    intro acc l x hl hx
    by_cases h : acc.isEmpty
    · simp [splitAuxNl, h] at hl
    · simp [splitAuxNl, h] at hl
      subst hl
      exact Or.inl (by simpa using hx)
  | cons b rest ih =>
    intro acc l x hl hx
    by_cases hb : b = 0x0a
    · subst hb
      simp only [splitAuxNl, if_pos rfl] at hl
      rcases List.mem_cons.mp hl with rfl | hl
      · exact Or.inl (by simpa using hx)
      · rcases ih [] l x hl hx with h | h
        · simp at h
        · exact Or.inr (List.mem_cons_of_mem _ h)
    · have hl' : l ∈ splitAuxNl (b :: acc) rest := by simpa [splitAuxNl, hb] using hl
      rcases ih (b :: acc) l x hl' hx with h | h
      · rcases List.mem_cons.mp h with rfl | h
        · exact Or.inr (List.mem_cons_self _ _)
        · exact Or.inl h
      · exact Or.inr (List.mem_cons_of_mem _ h)

theorem splitAuxNl_no_nl_in_lines (u : Bytes) : ∀ acc l, 0x0a ∉ acc → l ∈ splitAuxNl acc u →
    0x0a ∉ l := by
  induction u with
  | nil =>
    intro acc l ha hl
    by_cases h : acc.isEmpty
    · simp [splitAuxNl, h] at hl
    · simp [splitAuxNl, h] at hl
      subst hl
      simpa using ha
  | cons b rest ih =>
    intro acc l ha hl
    by_cases hb : b = 0x0a
    · subst hb
      simp only [splitAuxNl, if_pos rfl] at hl
      rcases List.mem_cons.mp hl with rfl | hl
      · simpa using ha
      · exact ih [] l (by simp) hl
    · have hl' : l ∈ splitAuxNl (b :: acc) rest := by simpa [splitAuxNl, hb] using hl
      have ha' : 0x0a ∉ b :: acc := by
        intro hc
        rcases List.mem_cons.mp hc with h | h
        · exact hb h.symm
        · exact ha h
      exact ih (b :: acc) l ha' hl'

end ESF
namespace ESF
theorem containsSeq_single_iff (a : Nat) (u : Bytes) : containsSeq [a] u = true ↔ a ∈ u := by
  induction u with
  | nil => simp [containsSeq]
  | cons x rest ih =>
    simp only [containsSeq, Bool.or_eq_true, ih, List.mem_cons]
    constructor
    · rintro (h | h)
      · simp [List.isPrefixOf] at h
        exact Or.inl h
      · exact Or.inr h
    · rintro (h | h)
      · exact Or.inl (by simp [List.isPrefixOf, h])
      · exact Or.inr h
theorem containsSeq_head_mem (a : Nat) (n u : Bytes) (h : containsSeq (a :: n) u = true) :
    a ∈ u := by
  induction u with
  | nil => simp [containsSeq] at h
  | cons x rest ih =>
    simp only [containsSeq, Bool.or_eq_true] at h
    rcases h with h | h
    · simp [List.isPrefixOf] at h
      exact List.mem_cons.mpr (Or.inl h.1)
    · exact List.mem_cons_of_mem _ (ih h)
theorem endsWithB_single_iff (u : Bytes) (a : Nat) :
    endsWithB u [a] = true ↔ u.getLast? = some a := by
  unfold endsWithB List.isSuffixOf
  rw [← List.head?_reverse]
  generalize u.reverse = v
  cases v with
  | nil => simp [List.isPrefixOf]
  | cons x t =>
    simp only [List.reverse_singleton, List.isPrefixOf, Bool.and_eq_true, beq_iff_eq,
      List.head?_cons, Option.some.injEq]
    constructor
    · intro h; exact h.1.symm
    · intro h; exact ⟨h.symm, by simp [List.isPrefixOf]⟩
theorem endsWithB_pair_mem (u : Bytes) (a b : Nat) (h : endsWithB u [a, b] = true) :
    a ∈ u := by
  unfold endsWithB List.isSuffixOf at h
  have hmem : a ∈ u.reverse := by
    cases hv : u.reverse with
    | nil => rw [hv] at h; simp [List.isPrefixOf] at h
    | cons x t =>
      rw [hv] at h
      cases t with
      | nil => simp [List.isPrefixOf] at h
      | cons y t2 =>
        simp [List.isPrefixOf] at h
        exact List.mem_cons.mpr (Or.inr (List.mem_cons.mpr (Or.inl h.2)))
  simpa using hmem
end ESF

namespace ESF

theorem rstripSet_nil (u : Bytes) : rstripSet [] u = u := by
  unfold rstripSet
  have h : ∀ v : Bytes, v.dropWhile (fun b => ([] : Bytes).contains b) = v := by
    intro v
    cases v with
    | nil => rfl
    | cons x t => rfl
  rw [h, List.reverse_reverse]

theorem rstripSet_single (g : Bytes) (h : 0x0a ∉ g) :
    rstripSet [0x0a] (g ++ [0x0a]) = g := by
  unfold rstripSet
  rw [List.reverse_append]
  have h1 : (([0x0a] : Bytes).reverse ++ g.reverse) = 0x0a :: g.reverse := rfl
  rw [h1]
  have h2 : List.dropWhile (fun b => ([0x0a] : Bytes).contains b) (0x0a :: g.reverse)
      = List.dropWhile (fun b => ([0x0a] : Bytes).contains b) g.reverse := rfl
  rw [h2]
  have h3 : List.dropWhile (fun b => ([0x0a] : Bytes).contains b) g.reverse = g.reverse := by
    cases hg : g.reverse with
    | nil => rfl
    | cons x t =>
      have hx : x ∈ g := by
        have hxr : x ∈ g.reverse := by rw [hg]; exact List.mem_cons_self _ _
        simpa using hxr
      have hx10 : x ≠ 0x0a := fun hc => h (hc ▸ hx)
      simp [List.dropWhile_cons, hx10]
  rw [h3, List.reverse_reverse]

theorem endsWith_nl_eq (u : Bytes) : endsWithB u [0x0a] = lastIsNl u := by
  by_cases h : u.getLast? = some 0x0a
  · rw [(endsWithB_single_iff u 0x0a).mpr h]
    simp [lastIsNl, h]
  · have hf : endsWithB u [0x0a] = false := by
      cases hE : endsWithB u [0x0a] with
      | false => rfl
      | true => exact absurd ((endsWithB_single_iff u 0x0a).mp hE) h
    have hl : lastIsNl u = false := by
      simp only [lastIsNl, beq_eq_false_iff_ne, ne_eq]
      exact h
    rw [hf, hl]

theorem onlyNL_append (a b : Bytes) (ha : onlyNL a) (hb : onlyNL b) : onlyNL (a ++ b) := by
  intro x hx hbx
  rcases List.mem_append.mp hx with h | h
  · exact ha x h hbx
  · exact hb x h hbx

theorem recSum_append (a b : List BRecord) : recSum (a ++ b) = recSum a + recSum b := by
  simp [recSum]

theorem emitLines_recSum (ls : List Bytes) : ∀ off nl, recSum (emitLines off nl ls) =
    (ls.map (fun l => l.length + nl.length)).sum := by
  induction ls with
  | nil => intro off nl; simp [emitLines, recSum]
  | cons l rest ih =>
    intro off nl
    simp only [emitLines, recSum, List.map_cons, List.sum_cons] at ih ⊢
    rw [ih]

theorem emitLines_chain (ls : List Bytes) : ∀ off nl, chainedFrom off (emitLines off nl ls) := by
  induction ls with
  | nil => intro off nl; trivial
  | cons l rest ih => intro off nl; exact ⟨rfl, rfl, ih _ nl⟩

theorem chainedFrom_append (l1 : List BRecord) : ∀ off l2, chainedFrom off l1 →
    chainedFrom (off + recSum l1) l2 → chainedFrom off (l1 ++ l2) := by
  induction l1 with
  | nil =>
    intro off l2 _ h2
    simpa [recSum] using h2
  | cons r rest ih =>
    intro off l2 h1 h2
    obtain ⟨hs, he, hrest⟩ := h1
    refine ⟨hs, he, ?_⟩
    apply ih r.ending_offset l2 hrest
    have heq : r.ending_offset + recSum rest = off + recSum (r :: rest) := by
      simp only [recSum, List.map_cons, List.sum_cons]
      omega
    rw [heq]
    exact h2

end ESF

namespace ESF

theorem byLinesStep_eq_true (st : ByLinesState) (data : Bytes)
    (h : (splitlinesB (st.unfinished_line ++ data)).isEmpty = true) :
    byLinesStep st data = ({ st with unfinished_line := st.unfinished_line ++ data }, []) := by
  simp [byLinesStep, h]

theorem byLinesStep_eq_false (st : ByLinesState) (data : Bytes)
    (h : (splitlinesB (st.unfinished_line ++ data)).isEmpty = false) :
    byLinesStep st data =
      (⟨st.ending_offset + (((splitlinesB (st.unfinished_line ++ data)).dropLast).map
          (fun l => l.length + (detectNewline (st.unfinished_line ++ data)).length)).sum,
        ((splitlinesB (st.unfinished_line ++ data)).getLastD []) ++
          (if endsWithB (st.unfinished_line ++ data)
              (detectNewline (st.unfinished_line ++ data)) = true
            then detectNewline (st.unfinished_line ++ data) else [])⟩,
       emitLines st.ending_offset (detectNewline (st.unfinished_line ++ data))
         ((splitlinesB (st.unfinished_line ++ data)).dropLast)) := by
  simp [byLinesStep, h]

end ESF

namespace ESF

theorem byLinesStep_spec (st : ByLinesState) (data : Bytes)
    (hbuf : BufInv st.unfinished_line) (hdata : onlyNL data) :
    BufInv (byLinesStep st data).1.unfinished_line ∧
    recSum (byLinesStep st data).2 + (byLinesStep st data).1.unfinished_line.length
      = st.unfinished_line.length + data.length := by
  have honly : onlyNL (st.unfinished_line ++ data) := onlyNL_append _ _ hbuf.1 hdata
  have hlenu : (st.unfinished_line ++ data).length
      = st.unfinished_line.length + data.length := List.length_append _ _
  by_cases hu : st.unfinished_line ++ data = []
  · have hT : (splitlinesB (st.unfinished_line ++ data)).isEmpty = true := by
      rw [hu]; rfl
    rw [byLinesStep_eq_true st data hT]
    have hlen0 : st.unfinished_line.length + data.length = 0 := by
      have := congrArg List.length hu
      simpa using this
    refine ⟨⟨?_, ?_⟩, ?_⟩
    · intro x hx hbx
      rw [hu] at hx
      simp at hx
    · rw [hu]
      simp
    · simp only [recSum, List.map_nil, List.sum_nil]
      rw [hu]
      simpa using hlen0.symm
  · have hL : splitlinesB (st.unfinished_line ++ data)
        = splitAuxNl [] (st.unfinished_line ++ data) := splitAux_eq_nl [] _ honly
    have hne : splitAuxNl [] (st.unfinished_line ++ data) ≠ [] :=
      splitAuxNl_ne_nil _ [] (Or.inr hu)
    have hF : (splitlinesB (st.unfinished_line ++ data)).isEmpty = false := by
      rw [hL]
      cases hE : (splitAuxNl [] (st.unfinished_line ++ data)).isEmpty
      · rfl
      · exact absurd (List.isEmpty_iff.mp hE) hne
    rw [byLinesStep_eq_false st data hF]
    dsimp only
    have hrn : containsSeq [0x0d, 0x0a] (st.unfinished_line ++ data) = false := by
      cases hE : containsSeq [0x0d, 0x0a] (st.unfinished_line ++ data)
      · rfl
      · have h13 : (0x0d : Nat) ∈ st.unfinished_line ++ data := containsSeq_head_mem _ _ _ hE
        have h1310 := honly _ h13 (by decide)
        exact absurd h1310 (by decide)
    by_cases hc10 : containsSeq [0x0a] (st.unfinished_line ++ data) = true
    · have hnl : detectNewline (st.unfinished_line ++ data) = [0x0a] := by
        simp [detectNewline, hrn, hc10]
      rw [hnl, hL, endsWith_nl_eq]
      have hmeas := splitAuxNl_measure (st.unfinished_line ++ data) [] (Or.inr hu)
      have hg_cases := List.getLastD_mem_cons (splitAuxNl [] (st.unfinished_line ++ data))
        ([] : Bytes)
      have hgl : 0x0a ∉ (splitAuxNl [] (st.unfinished_line ++ data)).getLastD [] := by
        rcases List.mem_cons.mp hg_cases with hg | hg
        · rw [hg]; simp
        · exact splitAuxNl_no_nl_in_lines _ [] _ (by simp) hg
      have hgmem : ∀ x ∈ (splitAuxNl [] (st.unfinished_line ++ data)).getLastD [],
          x ∈ st.unfinished_line ++ data := by
        intro x hx
        rcases List.mem_cons.mp hg_cases with hg | hg
        · rw [hg] at hx; simp at hx
        · rcases splitAuxNl_lines_mem _ [] _ x hg hx with hmem | hmem
          · simp at hmem
          · exact hmem
      refine ⟨⟨?_, ?_⟩, ?_⟩
      · intro x hx hbx
        rcases List.mem_append.mp hx with hxm | hxm
        · exact honly x (hgmem x hxm) hbx
        · by_cases hE : lastIsNl (st.unfinished_line ++ data) = true
          · rw [hE] at hxm
            simp at hxm
            exact hxm
          · rw [if_neg hE] at hxm
            simp at hxm
      · by_cases hE : lastIsNl (st.unfinished_line ++ data) = true
        · rw [hE]
          rw [show (if (true = true) then ([0x0a] : Bytes) else []) = [0x0a] from rfl,
            List.dropLast_concat]
          exact hgl
        · rw [if_neg hE, List.append_nil]
          intro hc
          exact hgl (List.dropLast_subset _ hc)
      · rw [emitLines_recSum]
        simp only [sumNl] at hmeas
        rw [show (fun l : Bytes => l.length + ([0x0a] : Bytes).length)
            = (fun l : Bytes => l.length + 1) from rfl]
        by_cases hE : lastIsNl (st.unfinished_line ++ data) = true
        · rw [hE] at hmeas
          rw [show (if (true = true) then (1 : Nat) else 0) = 1 from rfl,
            List.length_nil] at hmeas
          rw [hE]
          rw [show (if (true = true) then ([0x0a] : Bytes) else []) = [0x0a] from rfl,
            List.length_append, List.length_singleton]
          omega
        · rw [if_neg hE, List.length_nil] at hmeas
          rw [if_neg hE, List.append_nil]
          omega
    · have hc10' : containsSeq [0x0a] (st.unfinished_line ++ data) = false := by
        cases hE : containsSeq [0x0a] (st.unfinished_line ++ data)
        · rfl
        · exact absurd hE hc10
      have hnl : detectNewline (st.unfinished_line ++ data) = [] := by
        simp [detectNewline, hrn, hc10']
      have h10u : 0x0a ∉ st.unfinished_line ++ data :=
        fun hmem => hc10 ((containsSeq_single_iff _ _).mpr hmem)
      have hLu : splitAuxNl [] (st.unfinished_line ++ data) = [st.unfinished_line ++ data] := by
        have := splitAuxNl_no_nl (st.unfinished_line ++ data) [] h10u (Or.inr hu)
        simpa using this
      rw [hnl, hL, hLu]
      have hends : endsWithB (st.unfinished_line ++ data) ([] : Bytes) = true := by
        unfold endsWithB List.isSuffixOf
        generalize (st.unfinished_line ++ data).reverse = v
        cases v with
        | nil => rfl
        | cons x t => rfl
      rw [hends]
      simp only [if_pos, List.dropLast_single, List.getLastD_cons, List.getLastD_nil,
        List.append_nil, emitLines, recSum, List.map_nil, List.sum_nil]
      refine ⟨⟨honly, ?_⟩, ?_⟩
      · intro hc
        exact h10u (List.dropLast_subset _ hc)
      · omega

end ESF

namespace ESF

theorem byLinesFlush_chain (st : ByLinesState) :
    chainedFrom st.ending_offset (byLinesFlush st) := by
  unfold byLinesFlush
  by_cases he : st.unfinished_line.isEmpty = true
  · rw [if_pos he]; trivial
  · rw [if_neg he]
    exact ⟨rfl, rfl, trivial⟩

theorem byLinesFlush_sum (st : ByLinesState) (hbuf : BufInv st.unfinished_line) :
    recSum (byLinesFlush st) = st.unfinished_line.length := by
  unfold byLinesFlush
  by_cases he : st.unfinished_line.isEmpty = true
  · rw [if_pos he]
    have h0 : st.unfinished_line = [] := List.isEmpty_iff.mp he
    simp [recSum, h0]
  · rw [if_neg he]
    have hrn : endsWithB st.unfinished_line [0x0d, 0x0a] = false := by
      cases hE : endsWithB st.unfinished_line [0x0d, 0x0a]
      · rfl
      · have h13 := endsWithB_pair_mem _ _ _ hE
        have hb := hbuf.1 _ h13 (by decide)
        exact absurd hb (by decide)
    rw [hrn]
    simp only [Bool.false_eq_true, if_false]
    by_cases hE : endsWithB st.unfinished_line [0x0a] = true
    · rw [if_pos hE]
      have hgl : st.unfinished_line.getLast? = some 0x0a := (endsWithB_single_iff _ _).mp hE
      have hud : st.unfinished_line.dropLast ++ [0x0a] = st.unfinished_line :=
        List.dropLast_append_getLast? _ (Option.mem_def.mpr hgl)
      have hr : rstripSet [0x0a] st.unfinished_line = st.unfinished_line.dropLast := by
        conv_lhs => rw [← hud]
        exact rstripSet_single _ hbuf.2
      have hlen := congrArg List.length hud
      simp only [List.length_append, List.length_singleton] at hlen
      simp only [recSum, List.map_cons, List.map_nil, List.sum_cons, List.sum_nil, hr,
        List.length_singleton]
      omega
    · rw [if_neg hE]
      simp [recSum, rstripSet_nil]

theorem byLinesStep_chain (st : ByLinesState) (data : Bytes) :
    chainedFrom st.ending_offset (byLinesStep st data).2 ∧
    (byLinesStep st data).1.ending_offset
      = st.ending_offset + recSum (byLinesStep st data).2 := by
  by_cases h : (splitlinesB (st.unfinished_line ++ data)).isEmpty = true
  · rw [byLinesStep_eq_true st data h]
    exact ⟨trivial, by simp [recSum]⟩
  · have hF : (splitlinesB (st.unfinished_line ++ data)).isEmpty = false := by
      cases hE : (splitlinesB (st.unfinished_line ++ data)).isEmpty
      · rfl
      · exact absurd hE h
    rw [byLinesStep_eq_false st data hF]
    dsimp only
    refine ⟨emitLines_chain _ _ _, ?_⟩
    rw [emitLines_recSum]

theorem byLinesRun_chain (chunks : List Bytes) : ∀ st : ByLinesState,
    chainedFrom st.ending_offset (byLinesRun st chunks) := by
  induction chunks with
  | nil => intro st; exact byLinesFlush_chain st
  | cons c cs ih =>
    intro st
    show chainedFrom st.ending_offset
      ((byLinesStep st c).2 ++ byLinesRun (byLinesStep st c).1 cs)
    obtain ⟨h1, h2⟩ := byLinesStep_chain st c
    apply chainedFrom_append _ _ _ h1
    rw [← h2]
    exact ih (byLinesStep st c).1

theorem byLinesRun_sum (chunks : List Bytes) : ∀ st : ByLinesState,
    BufInv st.unfinished_line → (∀ c ∈ chunks, onlyNL c) →
    recSum (byLinesRun st chunks)
      = st.unfinished_line.length + (chunks.map List.length).sum := by
  induction chunks with
  | nil =>
    intro st hbuf _
    show recSum (byLinesFlush st) = _
    rw [byLinesFlush_sum st hbuf]
    simp
  | cons c cs ih =>
    intro st hbuf hc
    show recSum ((byLinesStep st c).2 ++ byLinesRun (byLinesStep st c).1 cs) = _
    rw [recSum_append]
    obtain ⟨hbufR, hsum⟩ := byLinesStep_spec st c hbuf (hc c (List.mem_cons_self _ _))
    rw [ih (byLinesStep st c).1 hbufR (fun d hd => hc d (List.mem_cons_of_mem _ hd))]
    simp only [List.map_cons, List.sum_cons]
    omega

theorem byLines_chain (range_start : Nat) (chunks : List Bytes) :
    chainedFrom range_start (byLines range_start chunks) :=
  byLinesRun_chain chunks ⟨range_start, []⟩

theorem byLines_sum (range_start : Nat) (chunks : List Bytes)
    (h : ∀ c ∈ chunks, onlyNL c) :
    recSum (byLines range_start chunks) = (chunks.map List.length).sum := by
  have hbuf : BufInv ([] : Bytes) := by
    constructor
    · intro x hx hbx
      simp at hx
    · simp
  have := byLinesRun_sum chunks ⟨range_start, []⟩ hbuf h
  simpa [byLines] using this

end ESF

namespace ESF

/-- Claim C1 (counterexample): on the single chunk `b"a\nbb\r\nccc"` with the
JSON collector disabled, `by_lines` does NOT yield the three records
`("a",0,2,"\n")`, `("bb",2,6,"\r\n")`, `("ccc",6,9,"")` the claim states:
the newline style is detected once per buffer window, preferring `\r\n`
whenever it occurs anywhere in the window. -/
theorem C1_counterexample :
    byLines 0 [asciiB "a\nbb\r\nccc"] ≠
      [⟨asciiB "a", 0, 2, [0x0a]⟩, ⟨asciiB "bb", 2, 6, [0x0d, 0x0a]⟩,
       ⟨asciiB "ccc", 6, 9, []⟩] := by
  decide

/-- Claim C1 (amended): running `by_lines` from range_start 0 over the single
chunk `b"a\nbb\r\nccc"` yields three records whose payloads are "a", "bb" and
"ccc", but all complete lines of the window carry the window-level detected
newline `\r\n` (preferred over `\n` when present anywhere in the window), so
the offsets are (0,3), (3,7) and (7,10) and the final remainder has an empty
newline. -/
theorem C1_line_split :
    byLines 0 [asciiB "a\nbb\r\nccc"] =
      [⟨asciiB "a", 0, 3, [0x0d, 0x0a]⟩, ⟨asciiB "bb", 3, 7, [0x0d, 0x0a]⟩,
       ⟨asciiB "ccc", 7, 10, []⟩] := by
  decide

/-- Claim C2 (counterexample): the sum of payload+newline lengths over the
records of `by_lines` does not always equal the input stream length — on the
mixed-newline input `b"a\nbb\r\nccc"` (9 bytes) the records account for 10
bytes, because the `\n`-terminated first line is charged the two-byte
window-level `\r\n`. -/
theorem C2_counterexample :
    ¬ (recSum (byLines 0 [asciiB "a\nbb\r\nccc"])
        = (asciiB "a\nbb\r\nccc").length) := by
  decide

/-- Claim C2 (amended): for every input, the records of `by_lines` chain —
the first starting_offset equals range_start, each ending_offset equals
starting_offset plus payload and newline length, and each next record starts
where the previous ended; and whenever every chunk's line-boundary bytes are
uniformly `\n` (no `\r` or other boundary characters), the sum over all
yielded records of payload length plus newline length equals the total input
stream length. -/
theorem C2_offset_accounting (range_start : Nat) (chunks : List Bytes) :
    chainedFrom range_start (byLines range_start chunks) ∧
    ((∀ c ∈ chunks, onlyNL c) →
      recSum (byLines range_start chunks) = (chunks.map List.length).sum) :=
  ⟨byLines_chain range_start chunks, byLines_sum range_start chunks⟩

/-- Witness for C2: the amended claim instantiated on the concrete `\n`-only
stream `b"a\nb\nc"` split in one chunk. -/
theorem C2_offset_accounting_witness :
    chainedFrom 0 (byLines 0 [asciiB "a\nb\nc"]) ∧
    recSum (byLines 0 [asciiB "a\nb\nc"]) = ([asciiB "a\nb\nc"].map List.length).sum :=
  ⟨(C2_offset_accounting 0 [asciiB "a\nb\nc"]).1,
   (C2_offset_accounting 0 [asciiB "a\nb\nc"]).2 (by decide)⟩

end ESF

namespace ESF

/-- Claim C9 (confirmed): there is a well-formed URI `s3://<bucket>/<key>`
whose bucket name begins with characters from the set `{s,3,:,/}` — here
`s3://s3bucket/key` — for which the parser does NOT return the pair
`("s3bucket", "key")`: `strip("s3://")` removes any leading characters in
that set, so the bucket comes back as `"bucket"`. -/
theorem C9_s3_uri_strip_bug :
    fromS3UriToBucketNameAndObjectKey "s3://s3bucket/key" = .ok ("bucket", "key") ∧
    ("bucket", "key") ≠ (("s3bucket", "key") : String × String) := by
  constructor
  · rfl
  · decide

/-- Claim C7 (code bug): contrary to the claim, a missing `Records` key makes
`_get_trigger_type` raise `KeyError` (the `and` in the guard still evaluates
`event["Records"]`) and an empty `Records` list makes it raise `IndexError`
at `event["Records"][0]`; the "Not supported trigger" exception fires only
for a present, non-empty `Records` whose first record lacks `eventSource` or
carries an unsupported one.  `aws:sqs` maps to `sqs`, and to `self_sqs` when
`messageAttributes` contains `originalEventSource`. -/
theorem C7_trigger_type_eval :
    getTriggerType (Json.obj []) = .error (.keyError "Records") ∧
    getTriggerType (Json.obj [("Records", Json.arr [])]) = .error .indexError ∧
    getTriggerType (Json.obj [("Records", Json.arr [Json.obj []])])
      = .error (.exception "Not supported trigger") ∧
    getTriggerType (Json.obj [("Records",
        Json.arr [Json.obj [("eventSource", Json.str "aws:s3")]])])
      = .error (.exception "Not supported trigger") ∧
    getTriggerType (Json.obj [("Records",
        Json.arr [Json.obj [("eventSource", Json.str "aws:sqs")]])])
      = .ok "sqs" ∧
    getTriggerType (Json.obj [("Records", Json.arr [Json.obj
        [("eventSource", Json.str "aws:sqs"),
         ("messageAttributes", Json.obj [("originalEventSource", Json.str "x")])]])])
      = .ok "self_sqs" :=
  ⟨rfl, rfl, rfl, rfl, rfl, rfl⟩

end ESF

namespace ESF

set_option maxRecDepth 100000 in
/-- Claim C3 (confirmed): the derived document `_id` is a pure function of
`(bucket_arn, object_key, offset)` — for every event document it equals the
first 10 hex characters of SHA-256 of `bucket_arn || object_key`, a hyphen,
and the offset zero-padded to 12 decimal digits; in particular for bucket arn
`arn:aws:s3:::b`, key `k`, offset 42 it is
`sha256("arn:aws:s3:::bk")[:10] ++ "-000000000042"
= "13c8a0d901-000000000042"`. -/
theorem C3_document_id :
    (∀ e : EventDoc, s3ObjectId e
      = specDocumentId e.fields_aws_s3_bucket_arn e.fields_aws_s3_object_key
          e.fields_log_offset) ∧
    s3ObjectId sampleC3Event = specDocumentId "arn:aws:s3:::b" "k" 42 ∧
    specDocumentId "arn:aws:s3:::b" "k" 42 = "13c8a0d901-000000000042" :=
  ⟨fun _ => rfl, rfl, by rfl⟩

/-- Claim C6 (amended): the batch is bulk-sent and cleared exactly when the
number of buffered actions reaches `batch_max_actions`, or on explicit
`flush` (which always clears and issues a request iff the batch is
non-empty); `batch_max_bytes` is only recorded as the bulk call's
`max_chunk_bytes` and never triggers a flush in `send`. -/
theorem C6_batching (st : ESState) (e : EventDoc) (h : st.es_index.getD "" ≠ "") :
    sendES st e =
      (if ((st.bulk_actions.length + 1 : Int)) < st.bulk_batch_size
       then
         ({ st with
             replay_args_dataset := some st.dataset,
             bulk_actions := st.bulk_actions ++ [processedEvent st e] },
          processedEvent st e, .ok false)
       else
         ({ st with replay_args_dataset := some st.dataset, bulk_actions := [] },
          processedEvent st e, .ok true)) ∧
    flushES st = ({ st with bulk_actions := [] }, decide (0 < st.bulk_actions.length)) := by
  constructor
  · unfold sendES
    dsimp only
    rw [if_neg h]
    simp only [List.length_append, List.length_singleton]
    rfl
  · unfold flushES
    by_cases h0 : st.bulk_actions.length > 0
    · rw [if_pos h0]
      simp [h0]
    · rw [if_neg h0]
      simp [h0]

/-- Witness for C6: the amended claim at a concrete shipper (500-action
bound, index set, empty batch): one `send` appends without bulk-sending, and
`flush` on the empty batch issues no request. -/
theorem C6_batching_witness :
    sendES byteBoundShipper sampleEvent =
      (if ((byteBoundShipper.bulk_actions.length + 1 : Int))
          < byteBoundShipper.bulk_batch_size
       then
         ({ byteBoundShipper with
             replay_args_dataset := some byteBoundShipper.dataset,
             bulk_actions := byteBoundShipper.bulk_actions
               ++ [processedEvent byteBoundShipper sampleEvent] },
          processedEvent byteBoundShipper sampleEvent, .ok false)
       else
         ({ byteBoundShipper with
             replay_args_dataset := some byteBoundShipper.dataset,
             bulk_actions := [] },
          processedEvent byteBoundShipper sampleEvent, .ok true)) ∧
    flushES byteBoundShipper =
      ({ byteBoundShipper with bulk_actions := [] },
       decide (0 < byteBoundShipper.bulk_actions.length)) :=
  C6_batching byteBoundShipper sampleEvent (by decide)

set_option maxRecDepth 100000 in
/-- Claim C6 (counterexample): with `batch_max_bytes = 1` and an event whose
UTF-8 payload alone meets that byte bound, a single `send` issues NO bulk
request and leaves the action buffered — the accumulated batch bytes reaching
`batch_max_bytes` does not flush, refuting the claim as stated. -/
theorem C6_counterexample :
    byteBoundShipper.max_chunk_bytes = 1 ∧
    byteBoundShipper.max_chunk_bytes
      ≤ ((utf8Encode sampleEvent.fields_message).length : Int) ∧
    sendES byteBoundShipper sampleEvent =
      ({ byteBoundShipper with
          replay_args_dataset := some "generic",
          bulk_actions := [processedEvent byteBoundShipper sampleEvent] },
       processedEvent byteBoundShipper sampleEvent, .ok false) ∧
    (processedEvent byteBoundShipper sampleEvent).id
      = some "13c8a0d901-000000000000" :=
  ⟨rfl, by decide, rfl, by rfl⟩

theorem filter_id_unique (batch : List EventDoc) (e : String)
    (hnodup : (batch.map (fun x => x.id)).Nodup)
    (a : EventDoc) (ha : a ∈ batch) (hid : a.id = some e) :
    batch.filter (fun x => x.id == some e) = [a] := by
  induction batch with
  | nil => simp at ha
  | cons b rest ih =>
    rw [List.map_cons, List.nodup_cons] at hnodup
    obtain ⟨hbni, hnodup'⟩ := hnodup
    rcases List.mem_cons.mp ha with rfl | ha'
    · rw [List.filter_cons, if_pos (by simp [hid])]
      have hrest : rest.filter (fun x => x.id == some e) = [] := by
        rw [List.filter_eq_nil_iff]
        intro x hx hpx
        apply hbni
        have hxe : x.id = some e := by simpa using hpx
        rw [hid, ← hxe]
        exact List.mem_map.mpr ⟨x, hx, rfl⟩
      rw [hrest]
    · have hbne : b.id ≠ some e := by
        intro hc
        apply hbni
        rw [hc, ← hid]
        exact List.mem_map.mpr ⟨a, ha', rfl⟩
      rw [List.filter_cons, if_neg (by simp [hbne])]
      exact ih hnodup' ha'

/-- Claim C8 (amended): when the batch's `_id`s are pairwise distinct and
each per-action error's `create._id` occurs in the batch, the assertion holds —
exactly one action matches each error — and the outcome handler invokes the
replay handler once per error with `("elasticsearch", replay_args, action)`
where the action is the unique match. -/
theorem C8_outcome_unique_match (rad : Option String) (batch : List EventDoc)
    (errors : List BulkError)
    (hnodup : (batch.map (fun x => x.id)).Nodup)
    (hmem : ∀ err ∈ errors, ∃ a ∈ batch, a.id = some err.create_id) :
    ∃ rs, handleOutcome rad batch errors = .ok rs ∧
      List.Forall₂ (fun (err : BulkError) (p : String × Option String × EventDoc) =>
        p.1 = "elasticsearch" ∧ p.2.1 = rad ∧ p.2.2 ∈ batch ∧
        p.2.2.id = some err.create_id) errors rs := by
  revert hmem
  induction errors with
  | nil =>
    intro _
    exact ⟨[], rfl, List.Forall₂.nil⟩
  | cons err rest ih =>
    intro hmem
    obtain ⟨a, ha, hid⟩ := hmem err (List.mem_cons_self _ _)
    obtain ⟨rs, hrs, hfa⟩ := ih (fun e he => hmem e (List.mem_cons_of_mem _ he))
    refine ⟨("elasticsearch", rad, a) :: rs, ?_,
      List.Forall₂.cons ⟨rfl, rfl, ha, hid⟩ hfa⟩
    have hfilter := filter_id_unique batch err.create_id hnodup a ha hid
    simp only [handleOutcome, hfilter, hrs]
    rfl

/-- Witness for C8: a singleton batch with a unique id and one matching
error; the handler succeeds and replays that action. -/
theorem C8_outcome_unique_match_witness :
    ∃ rs, handleOutcome (some "generic")
        [{ sampleEvent with id := some "idA" }] [{ create_id := "idA" }] = .ok rs ∧
      List.Forall₂ (fun (err : BulkError) (p : String × Option String × EventDoc) =>
        p.1 = "elasticsearch" ∧ p.2.1 = some "generic" ∧
        p.2.2 ∈ [{ sampleEvent with id := some "idA" }] ∧
        p.2.2.id = some err.create_id) [{ create_id := "idA" }] rs :=
  C8_outcome_unique_match (some "generic") _ _ (by decide) (by decide)

set_option maxRecDepth 100000 in
/-- Claim C8 (counterexample): two actions whose `_id`s were both derived
from the same `(bucket_arn, object_key, offset)` triple (a duplicate
delivery) carry equal ids, so on a matching error the filter finds two
actions and the `len(action_failed) == 1` assertion fails. -/
theorem C8_counterexample :
    s3ObjectId sampleEvent = "13c8a0d901-000000000000" ∧
    handleOutcome (some "generic")
      [{ sampleEvent with id := some "13c8a0d901-000000000000" },
       { sampleEvent with id := some "13c8a0d901-000000000000" }]
      [{ create_id := "13c8a0d901-000000000000" }] = .error .assertionError :=
  ⟨by rfl, by rfl⟩

/-- Claim C10 (confirmed): `send` on a shipper whose index was never set (or
set empty) raises `ValueError("Elasticsearch index cannot be empty")` and
appends nothing — the returned state differs from the input only in the
`replay_args` assignment made before the check — yet the passed event has
already been mutated in place by `_enrich_event`. -/
theorem C10_send_empty_index (st : ESState) (e : EventDoc)
    (h : st.es_index.getD "" = "") :
    sendES st e = ({ st with replay_args_dataset := some st.dataset },
                   enrichEvent st e,
                   .error (.valueError "Elasticsearch index cannot be empty")) := by
  unfold sendES
  dsimp only
  rw [if_pos h]
  rfl

/-- Witness for C10: the un-set-index shipper on a concrete event. -/
theorem C10_send_empty_index_witness :
    sendES noIndexShipper sampleEvent
      = ({ noIndexShipper with replay_args_dataset := some noIndexShipper.dataset },
         enrichEvent noIndexShipper sampleEvent,
         .error (.valueError "Elasticsearch index cannot be empty")) :=
  C10_send_empty_index noIndexShipper sampleEvent rfl

end ESF

namespace ESF

/-- Claim C4 (confirmed): in `ndjson` mode with no field expander, the input
`b'{"x":1}\n{"y":2}\n'` yields exactly two records whose payloads parse to
the JSON objects `{"x":1}` and `{"y":2}` with offsets (0,8) and (8,16); each
parse marks `is_a_json_object`, each span length equals the accumulated
buffer length (payload plus its newline), and the surrounding newline is
stripped from the yielded payload. -/
theorem C4_ndjson_two_objects :
    jsonCollectorNdjson 0 [asciiB "\x7b\"x\":1\x7d\n\x7b\"y\":2\x7d\n"]
      = (⟨8, 16, [], true, true, false, 0⟩,
         [⟨asciiB "\x7b\"x\":1\x7d", 0, 8, [0x0a]⟩,
          ⟨asciiB "\x7b\"y\":2\x7d", 8, 16, [0x0a]⟩]) ∧
    jsonParser (asciiB "\x7b\"x\":1\x7d") = .ok (.obj [("x", .num 1)]) ∧
    jsonParser (asciiB "\x7b\"y\":2\x7d") = .ok (.obj [("y", .num 2)]) :=
  ⟨rfl, rfl, rfl⟩

end ESF

namespace ESF


theorem lineC5_eq : lineC5 = bodyC5 ++ [0x0a] := rfl

theorem ten_not_mem_bodyC5 : 0x0a ∉ bodyC5 := by decide

theorem onlyNL_lineC5 : onlyNL lineC5 := by decide

theorem chunkC5_succ (n : Nat) : chunkC5 (n + 1) = lineC5 ++ chunkC5 n := by
  simp [chunkC5, List.replicate_succ]

theorem mem_chunkC5 (n : Nat) : ∀ x ∈ chunkC5 n, x ∈ lineC5 := by
  induction n with
  | zero => intro x hx; simp [chunkC5] at hx
  | succ n ih =>
    intro x hx
    rw [chunkC5_succ] at hx
    rcases List.mem_append.mp hx with h | h
    · exact h
    · exact ih x h

theorem chunkC5_append_line (n : Nat) : chunkC5 n ++ lineC5 = chunkC5 (n + 1) := by
  induction n with
  | zero => simp [chunkC5]
  | succ n ih =>
    rw [chunkC5_succ, List.append_assoc, ih, ← chunkC5_succ]

theorem splitAuxNl_seg (seg : Bytes) (hseg : 0x0a ∉ seg) :
    ∀ (acc rest : Bytes),
    splitAuxNl acc (seg ++ 0x0a :: rest) = (acc.reverse ++ seg) :: splitAuxNl [] rest := by
  induction seg with
  | nil =>
    intro acc rest
    simp [splitAuxNl]
  | cons b seg' ih =>
    intro acc rest
    have hb : b ≠ 0x0a := fun hc => hseg (by rw [hc]; exact List.mem_cons_self _ _)
    have hseg' : 0x0a ∉ seg' := fun hc => hseg (List.mem_cons_of_mem _ hc)
    rw [List.cons_append]
    rw [show splitAuxNl acc (b :: (seg' ++ 0x0a :: rest))
          = splitAuxNl (b :: acc) (seg' ++ 0x0a :: rest) from by simp [splitAuxNl, hb]]
    rw [ih hseg' (b :: acc) rest]
    simp [List.append_assoc]

theorem splitAuxNl_chunkC5 : ∀ n, splitAuxNl [] (chunkC5 n) = List.replicate n bodyC5 := by
  intro n
  induction n with
  | zero => simp [chunkC5, splitAuxNl]
  | succ n ih =>
    rw [chunkC5_succ, lineC5_eq, List.append_assoc, List.singleton_append]
    rw [splitAuxNl_seg bodyC5 ten_not_mem_bodyC5 [] (chunkC5 n)]
    rw [ih]
    simp [List.replicate_succ]



theorem isSuffixOf_append_left (s a b : Bytes) (h : s.isSuffixOf b = true) :
    s.isSuffixOf (a ++ b) = true := by
  rw [List.isSuffixOf_iff_suffix] at h ⊢
  exact h.trans (List.suffix_append a b)

theorem endsWithB_append_right (a b suf : Bytes) (h : endsWithB b suf = true) :
    endsWithB (a ++ b) suf = true := isSuffixOf_append_left suf a b h

theorem endsWithB_chunkC5 (n : Nat) : endsWithB (chunkC5 (n + 1)) [0x0a] = true := by
  rw [← chunkC5_append_line]
  exact endsWithB_append_right _ _ _ (by decide)

theorem mem_chunkC5_ten (n : Nat) : 0x0a ∈ chunkC5 (n + 1) := by
  rw [chunkC5_succ]
  exact List.mem_append_left _ (by decide)

theorem not_mem_chunkC5_cr (n : Nat) : 0x0d ∉ chunkC5 n := fun h =>
  absurd (mem_chunkC5 n _ h) (by decide)

theorem detectNewline_chunkC5 (n : Nat) : detectNewline (chunkC5 (n + 1)) = [0x0a] := by
  unfold detectNewline
  have h1 : containsSeq [0x0d, 0x0a] (chunkC5 (n + 1)) = false := by
    cases hc : containsSeq [0x0d, 0x0a] (chunkC5 (n + 1)) with
    | false => rfl
    | true => exact absurd (containsSeq_head_mem _ _ _ hc) (not_mem_chunkC5_cr _)
  have h2 : containsSeq [0x0a] (chunkC5 (n + 1)) = true :=
    (containsSeq_single_iff _ _).mpr (mem_chunkC5_ten n)
  simp [h1, h2]

theorem onlyNL_chunkC5 (n : Nat) : onlyNL (chunkC5 n) := fun b hb hbound =>
  (by decide : onlyNL lineC5) b (mem_chunkC5 n b hb) hbound

theorem splitlinesB_chunkC5 (n : Nat) :
    splitlinesB (chunkC5 n) = List.replicate n bodyC5 := by
  unfold splitlinesB
  rw [splitAux_eq_nl _ _ (onlyNL_chunkC5 n), splitAuxNl_chunkC5]

theorem getLastD_replicate (m : Nat) (a : Bytes) : (List.replicate m a).getLastD a = a := by
  induction m with
  | zero => rfl
  | succ m ih => rw [List.replicate_succ, List.getLastD_cons, ih]

theorem getLastD_replicate_succ (m : Nat) (a : Bytes) :
    (List.replicate (m + 1) a).getLastD [] = a := by
  rw [List.replicate_succ, List.getLastD_cons, getLastD_replicate]

theorem dropLast_replicate_succ (m : Nat) (a : Bytes) :
    (List.replicate (m + 1) a).dropLast = List.replicate m a := by
  rw [List.replicate_succ', List.dropLast_concat]

theorem emitLines_length (ls : List Bytes) : ∀ off nl, (emitLines off nl ls).length = ls.length := by
  induction ls with
  | nil => intro off nl; rfl
  | cons l rest ih => intro off nl; simp [emitLines, ih]

theorem emitLines_mem (ls : List Bytes) : ∀ off nl, ∀ r ∈ emitLines off nl ls,
    r.payload ∈ ls ∧ r.newline = nl := by
  induction ls with
  | nil => intro off nl r hr; simp [emitLines] at hr
  | cons l rest ih =>
    intro off nl r hr
    rcases hr with _ | ⟨_, hr⟩
    · exact ⟨List.mem_cons_self _ _, rfl⟩
    · obtain ⟨h1, h2⟩ := ih _ nl r hr
      exact ⟨List.mem_cons_of_mem _ h1, h2⟩

theorem byLinesStep_chunkC5 (m : Nat) :
    byLinesStep ⟨0, []⟩ (chunkC5 (m + 1))
      = (⟨m * 17, bodyC5 ++ [0x0a]⟩, emitLines 0 [0x0a] (List.replicate m bodyC5)) := by
  have hne : (List.replicate (m + 1) bodyC5).isEmpty = false := by
    rw [List.replicate_succ]; rfl
  have hlen : bodyC5.length + 1 = 17 := by decide
  simp only [byLinesStep, List.nil_append, splitlinesB_chunkC5, hne, Bool.false_eq_true,
    if_false, detectNewline_chunkC5, endsWithB_chunkC5, if_true, getLastD_replicate_succ,
    dropLast_replicate_succ, List.map_replicate, List.length_singleton, hlen,
    List.sum_replicate, smul_eq_mul, Nat.zero_add]

theorem byLinesFlush_lineBuf (e : Nat) :
    byLinesFlush ⟨e, bodyC5 ++ [0x0a]⟩ = [⟨bodyC5, e, e + bodyC5.length + 1, [0x0a]⟩] := rfl

theorem byLines_chunkC5 (m : Nat) :
    byLines 0 [chunkC5 (m + 1)]
      = emitLines 0 [0x0a] (List.replicate m bodyC5)
        ++ [⟨bodyC5, m * 17, m * 17 + bodyC5.length + 1, [0x0a]⟩] := by
  unfold byLines byLinesRun
  rw [byLinesStep_chunkC5]
  simp only [byLinesRun]
  rw [byLinesFlush_lineBuf]

theorem byLines_chunkC5_length (m : Nat) :
    (byLines 0 [chunkC5 (m + 1)]).length = m + 1 := by
  rw [byLines_chunkC5]
  simp [emitLines_length]

theorem byLines_chunkC5_mem (m : Nat) : ∀ r ∈ byLines 0 [chunkC5 (m + 1)],
    r.payload = bodyC5 ∧ r.newline = [0x0a] := by
  intro r hr
  rw [byLines_chunkC5] at hr
  rcases List.mem_append.mp hr with h | h
  · obtain ⟨h1, h2⟩ := emitLines_mem _ _ _ r h
    exact ⟨List.eq_of_mem_replicate h1, h2⟩
  · rw [List.mem_singleton] at h
    subst h
    exact ⟨rfl, rfl⟩



theorem jp_objHead_fail (m : Nat) (rest : Bytes) :
    jp (m + 2) (.val (0x7b :: 0x6e :: rest)) = .error () := rfl

theorem jsonParser_chunkC5 (k : Nat) : jsonParser (chunkC5 (k + 1)) = .error () := by
  have hs : chunkC5 (k + 1) = 0x7b :: 0x6e :: (asciiB "ot json at all\n" ++ chunkC5 k) := by
    rw [chunkC5_succ]; rfl
  unfold jsonParser
  rw [hs]
  rw [show 2 * (0x7b :: 0x6e :: (asciiB "ot json at all\n" ++ chunkC5 k)).length + 4
        = (2 * (asciiB "ot json at all\n" ++ chunkC5 k).length + 6) + 2 from by
      simp [List.length_cons]; omega]
  rw [jp_objHead_fail]

theorem byLines_lineC5 (e : Nat) :
    byLines e [lineC5] = [⟨bodyC5, e, e + bodyC5.length + 1, [0x0a]⟩] := rfl

theorem byLines_emptyChunk (e : Nat) : byLines e [[]] = [] := rfl



theorem jcCollector_fail_bump (data newline : Bytes) (st0 : JCState)
    (hparse : jsonParser (st0.unfinished_line ++ data ++ newline) = .error ())
    (hjson : st0.is_a_json_object = false)
    (hbound : ¬ (st0.is_a_json_object_circuit_breaker + 1 > 1000)) :
    jcCollector data newline st0 =
      ({ st0 with unfinished_line := st0.unfinished_line ++ data ++ newline,
                  is_a_json_object_circuit_breaker :=
                    st0.is_a_json_object_circuit_breaker + 1 }, []) := by
  obtain ⟨s0, e0, u0, ho, ij, cb, ck⟩ := st0
  dsimp only at hparse hjson hbound ⊢
  subst hjson
  simp only [jcCollector]
  rw [hparse]
  simp only [Bool.false_and, Bool.false_eq_true, if_false]
  rw [if_neg hbound]

theorem jcCollector_fail_trip (data newline : Bytes) (st0 : JCState)
    (hparse : jsonParser (st0.unfinished_line ++ data ++ newline) = .error ())
    (hjson : st0.is_a_json_object = false)
    (hbound : st0.is_a_json_object_circuit_breaker + 1 > 1000) :
    jcCollector data newline st0 =
      ({ st0 with unfinished_line := st0.unfinished_line ++ data ++ newline,
                  is_a_json_object_circuit_breaker :=
                    st0.is_a_json_object_circuit_breaker + 1,
                  is_a_json_object_circuit_broken := true }, []) := by
  obtain ⟨s0, e0, u0, ho, ij, cb, ck⟩ := st0
  dsimp only at hparse hjson hbound ⊢
  subst hjson
  simp only [jcCollector]
  rw [hparse]
  simp only [Bool.false_and, Bool.false_eq_true, if_false]
  rw [if_pos hbound]

theorem jcStep_obj_fail (st0 : JCState) (r : BRecord)
    (hobj : st0.has_an_object_start = true)
    (hbroken : st0.is_a_json_object_circuit_broken = false)
    (hparse : jsonParser (st0.unfinished_line ++ r.payload ++ r.newline) = .error ())
    (hjson : st0.is_a_json_object = false)
    (hbound : ¬ (st0.is_a_json_object_circuit_breaker + 1 > 1000)) :
    jcStep st0 r =
      ({ st0 with unfinished_line := st0.unfinished_line ++ r.payload ++ r.newline,
                  is_a_json_object_circuit_breaker :=
                    st0.is_a_json_object_circuit_breaker + 1 }, []) := by
  obtain ⟨s0, e0, u0, ho, ij, cb, ck⟩ := st0
  dsimp only at hobj hbroken hparse hjson hbound ⊢
  subst hobj
  subst hbroken
  subst hjson
  simp only [jcStep, Bool.not_true, Bool.false_eq_true, if_false, if_true, ite_self]
  rw [jcCollector_fail_bump r.payload r.newline ⟨s0, e0, u0, true, false, false, ck⟩
    hparse rfl hbound]
  simp

theorem jcStep_first (a b : Nat) :
    jcStep ⟨0, 0, [], false, false, false, 0⟩ ⟨bodyC5, a, b, [0x0a]⟩ = (jcStateC5 1, []) := rfl

theorem jcStep_phase1 (j a b : Nat) (hbound : (j : Int) + 1 + 1 ≤ 1000) :
    jcStep (jcStateC5 (j + 1)) ⟨bodyC5, a, b, [0x0a]⟩ = (jcStateC5 (j + 2), []) := by
  have hbuf : chunkC5 (j + 1) ++ bodyC5 ++ [0x0a] = chunkC5 (j + 2) := by
    rw [List.append_assoc, ← lineC5_eq]
    exact chunkC5_append_line (j + 1)
  have hparse : jsonParser ((jcStateC5 (j + 1)).unfinished_line ++ bodyC5 ++ [0x0a])
      = .error () := by
    show jsonParser (chunkC5 (j + 1) ++ bodyC5 ++ [0x0a]) = .error ()
    rw [hbuf]
    exact jsonParser_chunkC5 (j + 1)
  have hb : ¬ ((jcStateC5 (j + 1)).is_a_json_object_circuit_breaker + 1 > 1000) := by
    show ¬ (((j + 1 : Nat) : Int) + 1 > 1000)
    push_cast
    omega
  have hck : ((j + 1 : Nat) : Int) + 1 = ((j + 2 : Nat) : Int) := by push_cast; ring
  rw [jcStep_obj_fail (jcStateC5 (j + 1)) ⟨bodyC5, a, b, [0x0a]⟩ rfl rfl hparse rfl hb]
  simp only [jcStateC5]
  rw [hbuf, hck]



theorem recSum_cons (r : BRecord) (rs : List BRecord) :
    recSum (r :: rs) = r.payload.length + r.newline.length + recSum rs := by
  simp [recSum]

theorem bodyC5_len : bodyC5.length = 16 := by decide

theorem jcStep_obj_trip (st0 : JCState) (r : BRecord)
    (hobj : st0.has_an_object_start = true)
    (hparse : jsonParser (st0.unfinished_line ++ r.payload ++ r.newline) = .error ())
    (hjson : st0.is_a_json_object = false)
    (hbound : st0.is_a_json_object_circuit_breaker + 1 > 1000) :
    jcStep st0 r =
      jcFallback { st0 with
        unfinished_line := st0.unfinished_line ++ r.payload ++ r.newline,
        is_a_json_object_circuit_breaker := st0.is_a_json_object_circuit_breaker + 1,
        is_a_json_object_circuit_broken := true } := by
  obtain ⟨s0, e0, u0, ho, ij, cb, ck⟩ := st0
  dsimp only at hobj hparse hjson hbound ⊢
  subst hobj
  subst hjson
  simp only [jcStep, Bool.not_true, Bool.false_eq_true, if_false, if_true, ite_self]
  rw [jcCollector_fail_trip r.payload r.newline ⟨s0, e0, u0, true, false, cb, ck⟩
    hparse rfl hbound]
  simp

theorem jcFallbackFold (B : List BRecord) : ∀ (st : JCState) (acc : List BRecord),
    ∃ stF out,
      B.foldl (fun (acc : JCState × List BRecord) r =>
          let st := jcHandleOffset (r.payload.length + r.newline.length) acc.1
          let st := { st with unfinished_line := [], has_an_object_start := false }
          (st, acc.2 ++ [⟨r.payload, st.starting_offset, st.ending_offset, r.newline⟩]))
        (st, acc) = (stF, acc ++ out) ∧
      out.length = B.length ∧
      chainedFrom st.ending_offset out ∧
      (∀ r ∈ out, ∃ r0 ∈ B, r.payload = r0.payload ∧ r.newline = r0.newline) ∧
      stF.ending_offset = st.ending_offset + recSum out ∧
      stF.is_a_json_object = st.is_a_json_object ∧
      stF.is_a_json_object_circuit_broken = st.is_a_json_object_circuit_broken ∧
      stF.is_a_json_object_circuit_breaker = st.is_a_json_object_circuit_breaker ∧
      (B = [] → stF = st) ∧
      (B ≠ [] → stF.unfinished_line = [] ∧ stF.has_an_object_start = false) := by
  induction B with
  | nil =>
    intro st acc
    refine ⟨st, [], by simp, rfl, trivial, by simp, by simp [recSum], rfl, rfl, rfl,
      fun _ => rfl, fun h => absurd rfl h⟩
  | cons r B' ih =>
    intro st acc
    obtain ⟨stF, out', hfold, hlen, hchain, htrans, hend, hij, hcb, hck, hnil, hnnil⟩ :=
      ih ⟨st.ending_offset, st.ending_offset + (r.payload.length + r.newline.length), [],
          false, st.is_a_json_object, st.is_a_json_object_circuit_broken,
          st.is_a_json_object_circuit_breaker⟩
        (acc ++ [⟨r.payload, st.ending_offset,
          st.ending_offset + (r.payload.length + r.newline.length), r.newline⟩])
    refine ⟨stF, ⟨r.payload, st.ending_offset,
      st.ending_offset + (r.payload.length + r.newline.length), r.newline⟩ :: out',
      ?_, ?_, ?_, ?_, ?_, ?_, ?_, ?_, ?_, ?_⟩
    · exact Eq.trans hfold (by simp)
    · simp [hlen]
    · exact ⟨rfl, by dsimp only; omega, hchain⟩
    · intro x hx
      rcases hx with _ | ⟨_, hx⟩
      · exact ⟨r, List.mem_cons_self _ _, rfl, rfl⟩
      · obtain ⟨r0, hr0, h1, h2⟩ := htrans x hx
        exact ⟨r0, List.mem_cons_of_mem _ hr0, h1, h2⟩
    · rw [recSum_cons]
      dsimp only at hend ⊢
      rw [hend]
      omega
    · exact hij
    · exact hcb
    · exact hck
    · intro h
      exact absurd h (List.cons_ne_nil _ _)
    · intro _
      rcases Decidable.em (B' = []) with hB | hB
      · subst hB
        rw [hnil rfl]
        exact ⟨rfl, rfl⟩
      · exact hnnil hB

theorem jcFallback_spec (st0 : JCState) :
    ∃ stF out, jcFallback st0 = (stF, out) ∧
      out.length = (byLines st0.ending_offset [st0.unfinished_line]).length ∧
      chainedFrom st0.ending_offset out ∧
      (∀ r ∈ out, ∃ r0 ∈ byLines st0.ending_offset [st0.unfinished_line],
        r.payload = r0.payload ∧ r.newline = r0.newline) ∧
      stF.ending_offset = st0.ending_offset + recSum out ∧
      stF.is_a_json_object = st0.is_a_json_object ∧
      stF.is_a_json_object_circuit_broken = st0.is_a_json_object_circuit_broken ∧
      stF.is_a_json_object_circuit_breaker = st0.is_a_json_object_circuit_breaker ∧
      (byLines st0.ending_offset [st0.unfinished_line] = [] → stF = st0) ∧
      (byLines st0.ending_offset [st0.unfinished_line] ≠ [] →
        stF.unfinished_line = [] ∧ stF.has_an_object_start = false) := by
  obtain ⟨stF, out, hfold, rest⟩ :=
    jcFallbackFold (byLines st0.ending_offset [st0.unfinished_line]) st0 []
  exact ⟨stF, out, by rw [jcFallback, hfold]; simp, rest⟩



theorem jcStep_trip (a b : Nat) :
    ∃ stF out, jcStep (jcStateC5 1000) ⟨bodyC5, a, b, [0x0a]⟩ = (stF, out) ∧
      out.length = 1001 ∧
      chainedFrom 0 out ∧
      (∀ r ∈ out, r.payload = bodyC5 ∧ r.newline = [0x0a]) ∧
      stF.ending_offset = recSum out ∧
      stF.is_a_json_object = false ∧
      stF.is_a_json_object_circuit_broken = true ∧
      stF.is_a_json_object_circuit_breaker = ((1000 : Nat) : Int) + 1 ∧
      stF.unfinished_line = [] ∧ stF.has_an_object_start = false := by
  have hbuf : chunkC5 1000 ++ bodyC5 ++ [0x0a] = chunkC5 (1000 + 1) := by
    rw [List.append_assoc, ← lineC5_eq]
    exact chunkC5_append_line 1000
  have hparse : jsonParser ((jcStateC5 1000).unfinished_line ++ bodyC5 ++ [0x0a])
      = .error () := by
    show jsonParser (chunkC5 1000 ++ bodyC5 ++ [0x0a]) = .error ()
    rw [hbuf]
    exact jsonParser_chunkC5 1000
  have hbound : (jcStateC5 1000).is_a_json_object_circuit_breaker + 1 > 1000 := by
    show ((1000 : Nat) : Int) + 1 > 1000
    norm_num
  have htrip := jcStep_obj_trip (jcStateC5 1000) ⟨bodyC5, a, b, [0x0a]⟩ rfl hparse rfl hbound
  obtain ⟨stF, out, hfb, hlen, hchain, htrans, hend, hij, hcb, hck, _, hnnil⟩ :=
    jcFallback_spec { jcStateC5 1000 with
      unfinished_line :=
        (jcStateC5 1000).unfinished_line
          ++ (⟨bodyC5, a, b, [0x0a]⟩ : BRecord).payload
          ++ (⟨bodyC5, a, b, [0x0a]⟩ : BRecord).newline,
      is_a_json_object_circuit_breaker :=
        (jcStateC5 1000).is_a_json_object_circuit_breaker + 1,
      is_a_json_object_circuit_broken := true }
  have hBeq : byLines
      (({ jcStateC5 1000 with
          unfinished_line :=
            (jcStateC5 1000).unfinished_line
              ++ (⟨bodyC5, a, b, [0x0a]⟩ : BRecord).payload
              ++ (⟨bodyC5, a, b, [0x0a]⟩ : BRecord).newline,
          is_a_json_object_circuit_breaker :=
            (jcStateC5 1000).is_a_json_object_circuit_breaker + 1,
          is_a_json_object_circuit_broken := true } : JCState).ending_offset)
      [({ jcStateC5 1000 with
          unfinished_line :=
            (jcStateC5 1000).unfinished_line
              ++ (⟨bodyC5, a, b, [0x0a]⟩ : BRecord).payload
              ++ (⟨bodyC5, a, b, [0x0a]⟩ : BRecord).newline,
          is_a_json_object_circuit_breaker :=
            (jcStateC5 1000).is_a_json_object_circuit_breaker + 1,
          is_a_json_object_circuit_broken := true } : JCState).unfinished_line]
      = byLines 0 [chunkC5 (1000 + 1)] := by
    show byLines 0 [chunkC5 1000 ++ bodyC5 ++ [0x0a]] = byLines 0 [chunkC5 (1000 + 1)]
    rw [hbuf]
  have hBlen : (byLines 0 [chunkC5 (1000 + 1)]).length = 1001 :=
    byLines_chunkC5_length 1000
  refine ⟨stF, out, Eq.trans htrip hfb, ?_, hchain, ?_, hend.trans (Nat.zero_add _),
    hij, hcb, hck, ?_⟩
  · rw [hlen, hBeq]
    exact hBlen
  · intro r hr
    obtain ⟨r0, hr0, hp, hn⟩ := htrans r hr
    rw [hBeq] at hr0
    obtain ⟨hp0, hn0⟩ := byLines_chunkC5_mem 1000 r0 hr0
    exact ⟨hp.trans hp0, hn.trans hn0⟩
  · refine hnnil ?_
    rw [hBeq]
    intro h
    rw [h] at hBlen
    simp at hBlen

theorem jcStep_post (st0 : JCState) (a b : Nat)
    (hobj : st0.has_an_object_start = false)
    (hjson : st0.is_a_json_object = false)
    (hbroken : st0.is_a_json_object_circuit_broken = true)
    (hunf : st0.unfinished_line = [])
    (hbound : st0.is_a_json_object_circuit_breaker + 1 > 1000) :
    jcStep st0 ⟨bodyC5, a, b, [0x0a]⟩ =
      ({ st0 with starting_offset := st0.ending_offset,
                  ending_offset := st0.ending_offset + 17,
                  is_a_json_object_circuit_breaker :=
                    st0.is_a_json_object_circuit_breaker + 1 },
       [⟨bodyC5, st0.ending_offset, st0.ending_offset + 17, [0x0a]⟩]) := by
  obtain ⟨s0, e0, u0, ho, ij, cb, ck⟩ := st0
  dsimp only at hobj hjson hbroken hunf hbound ⊢
  subst hobj
  subst hjson
  subst hbroken
  subst hunf
  have hcond : (decide ((List.dropWhile isPySpace bodyC5).length > 0)
      && ((List.dropWhile isPySpace bodyC5).headD 0 == 0x7b)) = true := by decide
  simp only [jcStep, Bool.not_false, Bool.not_true, Bool.false_eq_true, if_false, if_true,
    ite_self, hcond]
  rw [jcCollector_fail_trip bodyC5 [0x0a] ⟨s0, e0, [], true, false, true, ck⟩ rfl rfl hbound]
  simp only [jcFallback]
  rw [show (([] : Bytes) ++ bodyC5 ++ [0x0a]) = lineC5 from rfl]
  rw [byLines_lineC5 e0]
  simp only [List.foldl_cons, List.foldl_nil, jcHandleOffset]
  simp [bodyC5_len]



theorem foldPhase1 (RS : List BRecord) : ∀ (k : Nat) (acc : List BRecord),
    (∀ r ∈ RS, r.payload = bodyC5 ∧ r.newline = [0x0a]) →
    1 ≤ k → ((k : Int) + RS.length ≤ 1000) →
    RS.foldl (fun (acc : JCState × List BRecord) r =>
        let s := jcStep acc.1 r
        (s.1, acc.2 ++ s.2)) (jcStateC5 k, acc)
      = (jcStateC5 (k + RS.length), acc) := by
  induction RS with
  | nil => intro k acc _ _ _; simp
  | cons r RS' ih =>
    intro k acc hall hk hbound
    obtain ⟨p, rs, re, nl⟩ := r
    obtain ⟨hp, hn⟩ := hall _ (List.mem_cons_self _ _)
    dsimp only at hp hn
    subst hp
    subst hn
    obtain ⟨j, rfl⟩ : ∃ j, k = j + 1 := ⟨k - 1, by omega⟩
    simp only [List.length_cons] at hbound
    push_cast at hbound
    have hstep := jcStep_phase1 j rs re (by omega)
    rw [List.foldl_cons, hstep]
    dsimp only
    rw [List.append_nil]
    have hrec := ih (j + 2) acc (fun x hx => hall x (List.mem_cons_of_mem _ hx))
      (by omega) (by push_cast; omega)
    rw [hrec]
    simp only [List.length_cons]
    rw [show j + 1 + (RS'.length + 1) = j + 2 + RS'.length from by omega]

theorem foldPhase4 (RS : List BRecord) : ∀ (st : JCState) (acc : List BRecord),
    (∀ r ∈ RS, r.payload = bodyC5 ∧ r.newline = [0x0a]) →
    st.has_an_object_start = false →
    st.is_a_json_object = false →
    st.is_a_json_object_circuit_broken = true →
    st.unfinished_line = [] →
    st.is_a_json_object_circuit_breaker + 1 > 1000 →
    ∃ stF out,
      RS.foldl (fun (acc : JCState × List BRecord) r =>
          let s := jcStep acc.1 r
          (s.1, acc.2 ++ s.2)) (st, acc) = (stF, acc ++ out) ∧
      out.length = RS.length ∧
      chainedFrom st.ending_offset out ∧
      (∀ r ∈ out, r.payload = bodyC5 ∧ r.newline = [0x0a]) ∧
      stF.ending_offset = st.ending_offset + recSum out ∧
      stF.is_a_json_object = false ∧
      stF.is_a_json_object_circuit_broken = true ∧
      stF.unfinished_line = [] ∧
      stF.has_an_object_start = false := by
  induction RS with
  | nil =>
    intro st acc _ hobj hjson hbroken hunf _
    exact ⟨st, [], by simp, rfl, trivial, by simp, by simp [recSum], hjson, hbroken, hunf, hobj⟩
  | cons r RS' ih =>
    intro st acc hall hobj hjson hbroken hunf hbound
    obtain ⟨p, rs, re, nl⟩ := r
    obtain ⟨hp, hn⟩ := hall _ (List.mem_cons_self _ _)
    dsimp only at hp hn
    subst hp
    subst hn
    have hstep := jcStep_post st rs re hobj hjson hbroken hunf hbound
    obtain ⟨stF, out', hfold, hlen, hchain, huni, hend, hij, hcb, hunf2, hobj2⟩ :=
      ih
        { st with
          starting_offset := st.ending_offset
          ending_offset := st.ending_offset + 17
          is_a_json_object_circuit_breaker := st.is_a_json_object_circuit_breaker + 1 }
        (acc ++ [⟨bodyC5, st.ending_offset, st.ending_offset + 17, [0x0a]⟩])
        (fun x hx => hall x (List.mem_cons_of_mem _ hx))
        hobj hjson hbroken hunf (by dsimp only; omega)
    refine ⟨stF, ⟨bodyC5, st.ending_offset, st.ending_offset + 17, [0x0a]⟩ :: out',
      ?_, ?_, ?_, ?_, ?_, hij, hcb, hunf2, hobj2⟩
    · rw [List.foldl_cons, hstep]
      dsimp only
      rw [hfold]
      simp
    · simp [hlen]
    · exact ⟨rfl, by dsimp only; rw [bodyC5_len, List.length_singleton], hchain⟩
    · intro x hx
      rcases hx with _ | ⟨_, hx⟩
      · exact ⟨rfl, rfl⟩
      · exact huni x hx
    · rw [recSum_cons]
      dsimp only at hend ⊢
      rw [hend, bodyC5_len, List.length_singleton]
      omega

theorem foldFirst (RS : List BRecord)
    (hall : ∀ r ∈ RS, r.payload = bodyC5 ∧ r.newline = [0x0a])
    (hlen : RS.length = 1000) :
    RS.foldl (fun (acc : JCState × List BRecord) r =>
        let s := jcStep acc.1 r
        (s.1, acc.2 ++ s.2)) (⟨0, 0, [], false, false, false, 0⟩, [])
      = (jcStateC5 1000, []) := by
  cases RS with
  | nil => simp at hlen
  | cons r T1 =>
    obtain ⟨p, rs, re, nl⟩ := r
    obtain ⟨hp, hn⟩ := hall _ (List.mem_cons_self _ _)
    dsimp only at hp hn
    subst hp
    subst hn
    simp only [List.length_cons] at hlen
    have hrec := foldPhase1 T1 1 [] (fun x hx => hall x (List.mem_cons_of_mem _ hx))
      (by omega) (by push_cast; omega)
    have h1 : 1 + T1.length = 1000 := by omega
    exact hrec.trans (by rw [h1])

theorem foldSecond (RS : List BRecord)
    (hall : ∀ r ∈ RS, r.payload = bodyC5 ∧ r.newline = [0x0a])
    (hlen : RS.length = 1000) :
    ∃ stF out,
      RS.foldl (fun (acc : JCState × List BRecord) r =>
          let s := jcStep acc.1 r
          (s.1, acc.2 ++ s.2)) (jcStateC5 1000, []) = (stF, out) ∧
      out.length = 2000 ∧
      chainedFrom 0 out ∧
      (∀ r ∈ out, r.payload = bodyC5 ∧ r.newline = [0x0a]) ∧
      stF.is_a_json_object = false ∧
      stF.is_a_json_object_circuit_broken = true ∧
      stF.unfinished_line = [] := by
  cases RS with
  | nil => simp at hlen
  | cons r T2 =>
    obtain ⟨p, rs, re, nl⟩ := r
    obtain ⟨hp, hn⟩ := hall _ (List.mem_cons_self _ _)
    dsimp only at hp hn
    subst hp
    subst hn
    simp only [List.length_cons] at hlen
    obtain ⟨stT, fbOut, heq, hfbLen, hfbChain, hfbUni, hendT, hijT, hcbT, hckT, hunfT, hobjT⟩ :=
      jcStep_trip rs re
    obtain ⟨stF, out2, hfold2, hlen2, hchain2, huni2, hend2, hij2, hcb2, hunf2, hobj2⟩ :=
      foldPhase4 T2 stT fbOut (fun x hx => hall x (List.mem_cons_of_mem _ hx))
        hobjT hijT hcbT hunfT (by rw [hckT]; norm_num)
    refine ⟨stF, fbOut ++ out2, ?_, ?_, ?_, ?_, hij2, hcb2, hunf2⟩
    · rw [List.foldl_cons, heq]
      exact hfold2
    · rw [List.length_append, hfbLen, hlen2]
      omega
    · refine chainedFrom_append fbOut 0 out2 hfbChain ?_
      rw [Nat.zero_add, ← hendT]
      exact hchain2
    · intro x hx
      rcases List.mem_append.mp hx with h | h
      · exact hfbUni x h
      · exact huni2 x h

theorem foldU : ∃ stF out,
    (byLines 0 [chunkC5 2000]).foldl (fun (acc : JCState × List BRecord) r =>
        let s := jcStep acc.1 r
        (s.1, acc.2 ++ s.2)) (⟨0, 0, [], false, false, false, 0⟩, []) = (stF, out) ∧
    out.length = 2000 ∧
    chainedFrom 0 out ∧
    (∀ r ∈ out, r.payload = bodyC5 ∧ r.newline = [0x0a]) ∧
    stF.is_a_json_object = false ∧
    stF.is_a_json_object_circuit_broken = true ∧
    stF.unfinished_line = [] := by
  have hUlen : (byLines 0 [chunkC5 2000]).length = 2000 := by
    rw [show (2000 : Nat) = 1999 + 1 from rfl]
    exact byLines_chunkC5_length 1999
  have hUmem : ∀ r ∈ byLines 0 [chunkC5 2000], r.payload = bodyC5 ∧ r.newline = [0x0a] := by
    rw [show (2000 : Nat) = 1999 + 1 from rfl]
    exact byLines_chunkC5_mem 1999
  rw [← List.take_append_drop 1000 (byLines 0 [chunkC5 2000]), List.foldl_append]
  rw [foldFirst _ (fun x hx => hUmem x (List.take_subset _ _ hx))
    (by rw [List.length_take, hUlen]; omega)]
  exact foldSecond _ (fun x hx => hUmem x (List.drop_subset _ _ hx))
    (by rw [List.length_drop, hUlen])

theorem jsonCollectorNdjson_spec (range_start : Nat) (chunks : List Bytes)
    (stF : JCState) (out : List BRecord)
    (hfold : (byLines range_start chunks).foldl
        (fun (acc : JCState × List BRecord) r =>
          let s := jcStep acc.1 r
          (s.1, acc.2 ++ s.2))
        (⟨0, range_start, [], false, false, false, 0⟩, []) = (stF, out))
    (hij : stF.is_a_json_object = false)
    (hunf : stF.unfinished_line = []) :
    jsonCollectorNdjson range_start chunks = (stF, out) := by
  have hfb : jcFallback stF = (stF, []) := by
    rw [jcFallback, hunf, byLines_emptyChunk]
    rfl
  simp only [jsonCollectorNdjson]
  rw [hfold]
  dsimp only
  rw [hij]
  simp only [Bool.not_false, eq_self_iff_true, if_true, hfb]
  rw [List.append_nil]

theorem jsonCollectorNdjson_chunkC5 : ∃ stF out,
    jsonCollectorNdjson 0 [chunkC5 2000] = (stF, out) ∧
    out.length = 2000 ∧
    chainedFrom 0 out ∧
    (∀ r ∈ out, r.payload = bodyC5 ∧ r.newline = [0x0a]) ∧
    stF.is_a_json_object = false ∧
    stF.is_a_json_object_circuit_broken = true := by
  obtain ⟨stF, out, hfold, hlen, hchain, huni, hij, hcb, hunf⟩ := foldU
  exact ⟨stF, out, jsonCollectorNdjson_spec 0 [chunkC5 2000] stF out hfold hij hunf,
    hlen, hchain, huni, hij, hcb⟩

/-- Claim C5 (confirmed): in `ndjson` mode, whenever the circuit-breaker
counter exceeds 1000 without a successful parse — an object start seen, the
buffered bytes plus the incoming line failing `json_parser` — the collector
sets `is_a_json_object_circuit_broken` and routes the buffered bytes through
the inline `by_lines` fallback; and for the input `b"{not json at all\n"`
repeated 2000 times the breaker trips and the output is 2000 line records
chaining from offset 0, with the final state never marked as a JSON object
(`is_a_json_object = false`, `is_a_json_object_circuit_broken = true`). -/
theorem C5_circuit_breaker :
    (∀ (st : JCState) (r : BRecord),
        st.has_an_object_start = true →
        st.is_a_json_object = false →
        jsonParser (st.unfinished_line ++ r.payload ++ r.newline) = .error () →
        st.is_a_json_object_circuit_breaker + 1 > 1000 →
        jcStep st r =
          jcFallback { st with
            unfinished_line := st.unfinished_line ++ r.payload ++ r.newline,
            is_a_json_object_circuit_breaker := st.is_a_json_object_circuit_breaker + 1,
            is_a_json_object_circuit_broken := true }) ∧
    (∃ stF out,
        jsonCollectorNdjson 0 [(List.replicate 2000 lineC5).flatten] = (stF, out) ∧
        out.length = 2000 ∧
        chainedFrom 0 out ∧
        (∀ r ∈ out, r.payload = bodyC5 ∧ r.newline = [0x0a]) ∧
        stF.is_a_json_object = false ∧
        stF.is_a_json_object_circuit_broken = true) :=
  ⟨fun st r h1 h2 h3 h4 => jcStep_obj_trip st r h1 h3 h2 h4, jsonCollectorNdjson_chunkC5⟩

/-- Witness for C5: a collector state holding an object start with the breaker
at 1000 and an empty buffer, fed one more unparseable line, trips the breaker
and is routed through the by-lines fallback. -/
theorem C5_circuit_breaker_witness :
    jcStep ⟨0, 0, [], true, false, false, 1000⟩ ⟨bodyC5, 0, 17, [0x0a]⟩ =
      jcFallback ⟨0, 0, [] ++ bodyC5 ++ [0x0a], true, false, true, 1000 + 1⟩ :=
  C5_circuit_breaker.1 ⟨0, 0, [], true, false, false, 1000⟩ ⟨bodyC5, 0, 17, [0x0a]⟩
    rfl rfl rfl (by decide)

end ESF
